import Mathlib

/-!
Formal model of the single-file link checker (`linkChecker.py`) and of the
`urllib.parse` routines of CPython 3.11 that it calls (`urlparse`, `urljoin`).

Python strings are modelled as `List Char` (`PyStr`); the `String` level
functions used by the theorems wrap the `List Char` level ones.  The HTML
parser (BeautifulSoup) and the HTTP transport (requests) are external
collaborators: the parser is abstracted as the list of href attribute values
it yields in document order, the transport as the outcome (status code or
raised exception) of each HEAD/GET call.
-/

namespace LinkChecker

abbrev PyStr := List Char

/-- Characters stripped by Python `str.strip()` (ASCII / Latin-1 part; the
remaining Unicode Zs code points never occur in the claims). -/
def pySpaceChar (c : Char) : Bool :=
  c = ' ' || (9 ≤ c.toNat && c.toNat ≤ 13) || (28 ≤ c.toNat && c.toNat ≤ 31) ||
  c.toNat = 133 || c.toNat = 160

/-- Python `str.strip()`. -/
def pyStrip (s : PyStr) : PyStr :=
  ((s.dropWhile pySpaceChar).reverse.dropWhile pySpaceChar).reverse

/-- Characters in `_WHATWG_C0_CONTROL_OR_SPACE` of `urllib.parse`. -/
def c0OrSpace (c : Char) : Bool := c.toNat ≤ 32

/-- The `url.lstrip(_WHATWG_C0_CONTROL_OR_SPACE)` step of `urlsplit`. -/
def lstripC0 (s : PyStr) : PyStr := s.dropWhile c0OrSpace

/-- Removal of `_UNSAFE_URL_BYTES_TO_REMOVE` (tab, CR, LF) done by `urlsplit`. -/
def removeCtl (s : PyStr) : PyStr :=
  s.filter (fun c => !(c = '\t' || c = '\r' || c = '\n'))

/-- The `scheme.strip(_WHATWG_C0_CONTROL_OR_SPACE)` step of `urlsplit` applied
to the default-scheme argument. -/
def stripC0 (s : PyStr) : PyStr :=
  ((s.dropWhile c0OrSpace).reverse.dropWhile c0OrSpace).reverse

/-- Python `scheme_chars`: letters, digits, `+`, `-`, `.`. -/
def isSchemeChar (c : Char) : Bool :=
  (('a' ≤ c && c ≤ 'z') || ('A' ≤ c && c ≤ 'Z') || ('0' ≤ c && c ≤ '9') ||
   c = '+' || c = '-' || c = '.')

/-- Python `url[0].isascii() and url[0].isalpha()`. -/
def isAsciiAlpha (c : Char) : Bool :=
  ('a' ≤ c && c ≤ 'z') || ('A' ≤ c && c ≤ 'Z')

/-- Split a list at the first occurrence of `ch` (Python `s.split(ch, 1)`),
returning `none` when `ch` does not occur. -/
def splitFirst (ch : Char) : PyStr → Option (PyStr × PyStr)
  | [] => none
  | c :: rest =>
    if c = ch then some ([], rest)
    else (splitFirst ch rest).map (fun p => (c :: p.1, p.2))

/-- Split a list at the last occurrence of `ch`, returning `none` when `ch`
does not occur; the second component contains no `ch`. -/
def splitLast (ch : Char) (s : PyStr) : Option (PyStr × PyStr) :=
  (splitFirst ch s.reverse).map (fun p => (p.2.reverse, p.1.reverse))

/-- Python `str.split(ch)` (keeps empty pieces; `''.split(ch) = ['']`). -/
def splitAll (ch : Char) : PyStr → List PyStr
  | [] => [[]]
  | c :: rest =>
    match splitAll ch rest with
    | [] => [[]]
    | h :: t => if c = ch then [] :: h :: t else (c :: h) :: t

/-- Python `'/'.join`. -/
def joinSlash : List PyStr → PyStr
  | [] => []
  | [s] => s
  | s :: rest => s ++ '/' :: joinSlash rest

/-- The scheme recognizer of `urlsplit`: succeeds on `s = p ++ ':' :: rest`
when `p` starts with an ASCII letter and consists of scheme characters,
returning `(p, rest)`.  Mirrors `i = url.find(':'); if i > 0 and
url[0].isascii() and url[0].isalpha(): for c in url[:i]: ...`. -/
def matchSchemeAux : PyStr → Option (PyStr × PyStr)
  | [] => none
  | c :: rest =>
    if c = ':' then some ([], rest)
    else if isSchemeChar c then (matchSchemeAux rest).map (fun p => (c :: p.1, p.2))
    else none

def splitScheme (url : PyStr) : Option (PyStr × PyStr) :=
  match url with
  | [] => none
  | c :: _ => if isAsciiAlpha c then matchSchemeAux url else none

/-- Python `_splitnetloc(url, 2)` applied to `url.drop 2`: the netloc extends
up to the first of `/`, `?`, `#`. -/
def netlocDelim (c : Char) : Bool := c = '/' || c = '?' || c = '#'

structure SplitResult where
  scheme : PyStr
  netloc : PyStr
  path : PyStr
  query : PyStr
  fragment : PyStr
deriving Repr, DecidableEq

/-- CPython 3.11 `urlsplit(url, dscheme, allow_fragments=True)`.  The
`Invalid IPv6 URL` / bracketed-host `ValueError` raises of the original are
not modelled (they concern only netlocs containing `[` or `]`, on which the
original returns nothing at all); everything else follows the source line by
line. -/
def urlsplitL (url0 dscheme0 : PyStr) : SplitResult :=
  let url1 := removeCtl (lstripC0 url0)
  let dscheme := removeCtl (stripC0 dscheme0)
  let sr := match splitScheme url1 with
    | some (s, rest) => (s.map Char.toLower, rest)
    | none => (dscheme, url1)
  let scheme := sr.1
  let url2 := sr.2
  let nr :=
    if url2.take 2 = ['/', '/'] then
      ((url2.drop 2).takeWhile (fun c => !netlocDelim c),
       (url2.drop 2).dropWhile (fun c => !netlocDelim c))
    else ([], url2)
  let netloc := nr.1
  let url3 := nr.2
  let fr := match splitFirst '#' url3 with
    | some (a, b) => (a, b)
    | none => (url3, [])
  let url4 := fr.1
  let fragment := fr.2
  let qr := match splitFirst '?' url4 with
    | some (a, b) => (a, b)
    | none => (url4, [])
  ⟨scheme, netloc, qr.1, qr.2, fragment⟩

/-- Python `uses_relative` membership test. -/
def usesRelative (s : PyStr) : Bool :=
  (["", "ftp", "http", "gopher", "nntp", "imap", "wais", "file", "https",
    "shttp", "mms", "prospero", "rtsp", "rtsps", "rtspu", "sftp", "svn",
    "svn+ssh", "ws", "wss"].map String.data).contains s

/-- Python `uses_netloc` membership test. -/
def usesNetloc (s : PyStr) : Bool :=
  (["", "ftp", "http", "gopher", "nntp", "telnet", "imap", "wais", "file",
    "mms", "https", "shttp", "snews", "prospero", "rtsp", "rtsps", "rtspu",
    "rsync", "svn", "svn+ssh", "sftp", "nfs", "git", "git+ssh", "ws",
    "wss"].map String.data).contains s

/-- Python `uses_params` membership test. -/
def usesParams (s : PyStr) : Bool :=
  (["", "ftp", "hdl", "prospero", "http", "imap", "https", "shttp", "rtsp",
    "rtsps", "rtspu", "sip", "sips", "mms", "sftp", "tel"].map
    String.data).contains s

/-- Python `_splitparams(url)`: split `;params` off the last path segment. -/
def splitParams (url : PyStr) : PyStr × PyStr :=
  match splitLast '/' url with
  | some (a, b) =>
    match splitFirst ';' b with
    | some (b1, b2) => (a ++ '/' :: b1, b2)
    | none => (url, [])
  | none =>
    match splitFirst ';' url with
    | some (u1, u2) => (u1, u2)
    | none => (url, [])

structure ParseResult where
  scheme : PyStr
  netloc : PyStr
  path : PyStr
  params : PyStr
  query : PyStr
  fragment : PyStr
deriving Repr, DecidableEq

/-- CPython 3.11 `urlparse(url, dscheme, allow_fragments=True)`. -/
def urlparseL (url dscheme : PyStr) : ParseResult :=
  let s := urlsplitL url dscheme
  let pp :=
    if usesParams s.scheme && s.path.contains ';' then splitParams s.path
    else (s.path, [])
  ⟨s.scheme, s.netloc, pp.1, pp.2, s.query, s.fragment⟩

/-- CPython `urlunsplit`. -/
def urlunsplitL (scheme netloc url query fragment : PyStr) : PyStr :=
  let url :=
    if netloc ≠ [] || (scheme ≠ [] && usesNetloc scheme && url.take 2 ≠ ['/', '/']) then
      let url := if url ≠ [] && url.take 1 ≠ ['/'] then '/' :: url else url
      '/' :: '/' :: netloc ++ url
    else url
  let url := if scheme ≠ [] then scheme ++ ':' :: url else url
  let url := if query ≠ [] then url ++ '?' :: query else url
  if fragment ≠ [] then url ++ '#' :: fragment else url

/-- CPython `urlunparse`. -/
def urlunparseL (scheme netloc url params query fragment : PyStr) : PyStr :=
  let url := if params ≠ [] then url ++ ';' :: params else url
  urlunsplitL scheme netloc url query fragment

/-- The `for seg in segments` loop body of `urljoin` (`..` pops with
`IndexError` ignored, `.` is skipped, everything else is appended). -/
def segFold (acc : List PyStr) : List PyStr → List PyStr
  | [] => acc
  | seg :: rest =>
    if seg = ['.', '.'] then segFold acc.dropLast rest
    else if seg = ['.'] then segFold acc rest
    else segFold (acc ++ [seg]) rest

/-- The `segments[1:-1] = filter(None, segments[1:-1])` step of `urljoin`:
empty pieces are removed everywhere except at the two ends. -/
def filterInteriorAux : List PyStr → List PyStr
  | [] => []
  | [a] => [a]
  | a :: rest => if a = [] then filterInteriorAux rest else a :: filterInteriorAux rest

def filterInterior : List PyStr → List PyStr
  | [] => []
  | [a] => [a]
  | a :: rest => a :: filterInteriorAux rest

/-- CPython 3.11 `urljoin(base, url)` (with `allow_fragments = True`). -/
def urljoinL (base url : PyStr) : PyStr :=
  if base = [] then url
  else if url = [] then base
  else
    let b := urlparseL base []
    let r := urlparseL url b.scheme
    if r.scheme ≠ b.scheme || !usesRelative r.scheme then url
    else if usesNetloc r.scheme && r.netloc ≠ [] then
      urlunparseL r.scheme r.netloc r.path r.params r.query r.fragment
    else
      let netloc := if usesNetloc r.scheme then b.netloc else r.netloc
      if r.path = [] && r.params = [] then
        let query := if r.query = [] then b.query else r.query
        urlunparseL r.scheme netloc b.path b.params query r.fragment
      else
        let baseParts0 := splitAll '/' b.path
        let baseParts :=
          if baseParts0.getLast? ≠ some [] then baseParts0.dropLast else baseParts0
        let segments :=
          if r.path.take 1 = ['/'] then splitAll '/' r.path
          else filterInterior (baseParts ++ splitAll '/' r.path)
        let resolved := segFold [] segments
        let resolved :=
          if segments.getLast? = some ['.'] || segments.getLast? = some ['.', '.'] then
            resolved ++ [[]]
          else resolved
        let path := joinSlash resolved
        let path := if path = [] then ['/'] else path
        urlunparseL r.scheme netloc path r.params r.query r.fragment

/-- String-level `urljoin`. -/
def urljoin (base url : String) : String := ⟨urljoinL base.data url.data⟩

/-- The prefixes rejected by `is_http_url`:
`("#", "mailto:", "tel:", "javascript:", "data:")`. -/
def rejectedPrefixes : List PyStr :=
  ["#", "mailto:", "tel:", "javascript:", "data:"].map String.data

/-- Python `href.startswith(("#", "mailto:", "tel:", "javascript:", "data:"))`. -/
def startsWithRejected (s : PyStr) : Bool :=
  rejectedPrefixes.any (fun p => p.isPrefixOf s)

/-- Model of `is_http_url` (`linkChecker.py`, lines 28-38):
`if not href: return False`; `href = href.strip()`; `parsed = urlparse(href)`;
scheme in `("http", "https")` accepts; empty scheme not starting with a
rejected prefix accepts; everything else is rejected. -/
def isHttpUrlL (href : PyStr) : Bool :=
  if href = [] then false
  else
    let h := pyStrip href
    let parsed := urlparseL h []
    if parsed.scheme = "http".data || parsed.scheme = "https".data then true
    else if parsed.scheme = [] && !startsWithRejected h then true
    else false

def is_http_url (href : String) : Bool := isHttpUrlL href.data

/-- Lexicographic comparison of character lists by code point, the order
Python `sorted` uses on `str`.  Structural, so that concrete runs reduce in
the kernel (it agrees with Mathlib's order on `String`, see
`pyStrLe_iff_le`). -/
def lexLe : List Char → List Char → Bool
  | [], _ => true
  | _ :: _, [] => false
  | a :: as, b :: bs => if a < b then true else if a = b then lexLe as bs else false

/-- Python string comparison `a <= b`. -/
def pyStrLe (a b : String) : Bool := lexLe a.data b.data

/-- Model of `extract_links` (`linkChecker.py`, lines 41-59).  BeautifulSoup
is an external collaborator; it is abstracted by `hrefs`, the href attribute
values of the `<a href=...>` anchors of the document in document order.  The
Python `set` accumulation is modelled by an insert-if-absent fold and the
final `sorted(links)` by an insertion sort under the lexicographic order on
strings (Python's sort key for `str`). -/
def extract_links (hrefs : List String) (base_url : String) : List String :=
  let links := hrefs.foldl
    (fun acc href =>
      if is_http_url href then
        let absUrl := urljoin base_url href
        if absUrl ∈ acc then acc else acc ++ [absUrl]
      else acc)
    []
  List.insertionSort (fun a b => pyStrLe a b = true) links

/-- Python exceptions relevant to `check_link`: `requests.RequestException`
(the only kind the `requests` transport raises by contract) versus any other
exception. -/
inductive PyExn where
  | requestException (msg : String)
  | otherError (msg : String)
deriving Repr, DecidableEq

def PyExn.isRequestException : PyExn → Bool
  | .requestException _ => true
  | .otherError _ => false

def PyExn.msg : PyExn → String
  | .requestException m => m
  | .otherError m => m

/-- Outcome of one HTTP call (`session.head` or `session.get`): a response
carrying a status code, or a raised exception. -/
inductive HttpOutcome where
  | status (code : Nat)
  | raises (e : PyExn)
deriving Repr, DecidableEq

/-- The transport behaviour for one URL: what HEAD would do and what GET
would do.  The HTTP client is an external collaborator; `check_link` is a
function of these two outcomes. -/
structure Transport where
  headOut : HttpOutcome
  getOut : HttpOutcome
deriving Repr, DecidableEq

/-- The `except requests.RequestException:` fallback body of `check_link`
(the `session.get` branch), together with the outer handler.  Returns the
value of the call (or the uncaught exception) and is used with the list of
methods invoked so far. -/
def checkLinkGet (t : Transport) : Except PyExn (Bool × String) :=
  match t.getOut with
  | .raises e =>
    if e.isRequestException then .ok (true, "Error: " ++ e.msg)
    else .error e
  | .status code =>
    if code ≥ 400 then .ok (true, "HTTP " ++ toString code ++ " (GET)")
    else .ok (false, "HTTP " ++ toString code ++ " (GET)")

/-- Model of `check_link` (`linkChecker.py`, lines 74-97).  First component:
the returned `(is_broken, info_string)` pair, or the exception the call
would propagate (only possible for a non-`RequestException` transport
failure).  Second component: the HTTP methods invoked, in order.  The order
of the two tests on the HEAD status code follows the source: `code >= 400`
is checked before `code in (405, 403)`. -/
def check_link (t : Transport) : Except PyExn (Bool × String) × List String :=
  match t.headOut with
  | .raises e =>
    if e.isRequestException then (checkLinkGet t, ["HEAD", "GET"])
    else (.error e, ["HEAD"])
  | .status code =>
    if code ≥ 400 then (.ok (true, "HTTP " ++ toString code ++ " (HEAD)"), ["HEAD"])
    else if code = 405 || code = 403 then
      -- `raise requests.RequestException(f"HEAD not reliable: {code}")`,
      -- caught by the inner handler, which issues the GET.
      (checkLinkGet t, ["HEAD", "GET"])
    else (.ok (false, "HTTP " ++ toString code ++ " (HEAD)"), ["HEAD"])

/-- A transport obeying the `requests` contract: every failure it produces is
a `requests.RequestException`. -/
def Transport.WF (t : Transport) : Prop :=
  (∀ e, t.headOut = .raises e → e.isRequestException = true) ∧
  (∀ e, t.getOut = .raises e → e.isRequestException = true)

/-- The run summary assembled by `main` (`linkChecker.py`, lines 144-164):
`Total links checked`, the accumulated `broken_links` list, and the printed
`Broken links found` count, which the source computes as
`len(broken_links)`. -/
structure RunSummary where
  total : Nat
  brokenList : List (String × String)
  countBroken : Nat
deriving Repr, DecidableEq

/-- The `for i, link in enumerate(links, start=1)` loop of `main`: the
verdict function is applied to each link in order and broken results are
appended to `broken_links`.  `verdict` abstracts
`check_link(session, link)` restricted to runs where every check returns. -/
def runChecks (verdict : String → Bool × String) (links : List String) :
    List (String × String) :=
  links.foldl
    (fun acc link =>
      let r := verdict link
      if r.1 then acc ++ [(link, r.2)] else acc)
    []

/-- The summary block of `main`. -/
def summarize (verdict : String → Bool × String) (links : List String) :
    RunSummary :=
  let broken := runChecks verdict links
  ⟨links.length, broken, broken.length⟩

/-- Model of the orchestration in `main` (`linkChecker.py`, lines 100-164).
`fetched` is the outcome of obtaining the page HTML (Playwright rendering or
the raw `session.get`), abstracted to the anchor hrefs of the resulting
document or the error message of the failure.  Result: the process exit code
together with the summary, `none` when no summary block is printed (fatal
fetch failure exits 1 via `sys.exit(1)`; an empty link set exits 0 via
`sys.exit(0)` before the checking loop). -/
def mainRun (fetched : Except String (List String)) (url : String)
    (verdict : String → Bool × String) : Nat × Option RunSummary :=
  match fetched with
  | .error _ => (1, none)
  | .ok hrefs =>
    let links := extract_links hrefs url
    if links = [] then (0, none)
    else (0, some (summarize verdict links))

/-- The set-accumulation fold of `extract_links`. -/
def linkFold (base_url : String) (acc : List String) (hrefs : List String) :
    List String :=
  hrefs.foldl
    (fun acc href =>
      if is_http_url href then
        let absUrl := urljoin base_url href
        if absUrl ∈ acc then acc else acc ++ [absUrl]
      else acc)
    acc

/-- Characters that survive `removeCtl` unchanged. -/
def notCtl (c : Char) : Bool := !(c = '\t' || c = '\r' || c = '\n')

/-!  Specification-side reference resolution.

The spec requires each accepted relative href to be resolved "against the
page's URL per standard relative-resolution rules".  The following
definitions formalise the standard — RFC 3986 §5 (parsing per Appendix B,
`merge` per §5.2.3, `remove_dot_segments` per §5.2.4, transformation per
§5.2.2 strict, recomposition per §5.3) — independently of the CPython
model above, to be compared with it for the refinement claim.  Query and
fragment are `Option`s as in the RFC (an absent component differs from an
empty one). -/

/-- A URI reference decomposed per RFC 3986: optional scheme, optional
authority, path, optional query, optional fragment. -/
structure SpecUrl where
  scheme : Option PyStr
  authority : Option PyStr
  path : PyStr
  query : Option PyStr
  fragment : Option PyStr
deriving Repr, DecidableEq

/-- Parser for the five components (RFC 3986 Appendix B, with the strict
scheme grammar of §3.1, shared with the implementation model through
`splitScheme`): the fragment follows the first `#`, the query the first `?`
before it, the authority follows `//` and extends to the next `/`. -/
def specParse (s : PyStr) : SpecUrl :=
  let fr := match splitFirst '#' s with
    | some (a, b) => (a, some b)
    | none => (s, none)
  let qr := match splitFirst '?' fr.1 with
    | some (a, b) => (a, some b)
    | none => (fr.1, none)
  let sr := match splitScheme qr.1 with
    | some (sch, rest) => (some sch, rest)
    | none => (none, qr.1)
  let ar :=
    if sr.2.take 2 = ['/', '/'] then
      (some ((sr.2.drop 2).takeWhile (fun c => c ≠ '/')),
       (sr.2.drop 2).dropWhile (fun c => c ≠ '/'))
    else (none, sr.2)
  ⟨sr.1, ar.1, ar.2, qr.2, fr.2⟩

/-- Remove the last segment and its preceding slash (if any) from the
output buffer — RFC 3986 §5.2.4 step 2C. -/
def removeLastSegRFC (out : PyStr) : PyStr :=
  match splitLast '/' out with
  | some (a, _) => a
  | none => []

/-- RFC 3986 §5.2.4 `remove_dot_segments`, written as in the RFC over the
input and output buffers, with explicit fuel (one unit per loop iteration;
`rds` supplies enough: every iteration shortens the input). -/
def rdsFuel : Nat → PyStr → PyStr → PyStr
  | 0, out, inp => out ++ inp
  | fuel + 1, out, inp =>
    match inp with
    | [] => out
    | _ :: _ =>
      if inp.take 3 = ['.', '.', '/'] then rdsFuel fuel out (inp.drop 3)
      else if inp.take 2 = ['.', '/'] then rdsFuel fuel out (inp.drop 2)
      else if inp.take 3 = ['/', '.', '/'] then rdsFuel fuel out ('/' :: inp.drop 3)
      else if inp = ['/', '.'] then rdsFuel fuel out ['/']
      else if inp.take 4 = ['/', '.', '.', '/'] then
        rdsFuel fuel (removeLastSegRFC out) ('/' :: inp.drop 4)
      else if inp = ['/', '.', '.'] then rdsFuel fuel (removeLastSegRFC out) ['/']
      else if inp = ['.'] || inp = ['.', '.'] then rdsFuel fuel out []
      else
        match inp with
        | '/' :: rest =>
          rdsFuel fuel (out ++ '/' :: rest.takeWhile (fun c => c ≠ '/'))
            (rest.dropWhile (fun c => c ≠ '/'))
        | _ =>
          rdsFuel fuel (out ++ inp.takeWhile (fun c => c ≠ '/'))
            (inp.dropWhile (fun c => c ≠ '/'))

def rds (p : PyStr) : PyStr := rdsFuel p.length [] p

/-- RFC 3986 §5.2.3 `merge`: the reference path appended to all but the
last segment of the base path (`/` + path when the base has an authority
and an empty path). -/
def specMerge (baseHasAuth : Bool) (bpath rpath : PyStr) : PyStr :=
  if baseHasAuth && bpath = [] then '/' :: rpath
  else
    match splitLast '/' bpath with
    | some (a, _) => a ++ '/' :: rpath
    | none => rpath

/-- RFC 3986 §5.3 component recomposition. -/
def specRecompose (u : SpecUrl) : PyStr :=
  (match u.scheme with
    | some s => s ++ [':']
    | none => []) ++
  (match u.authority with
    | some a => '/' :: '/' :: a
    | none => []) ++
  u.path ++
  (match u.query with
    | some q => '?' :: q
    | none => []) ++
  (match u.fragment with
    | some f => '#' :: f
    | none => [])

/-- RFC 3986 §5.2.2 transform-references (strict parser): the
specification-side counterpart of `urljoin`, resolving `r` against `base`
under standard URL-resolution rules. -/
def specResolve (base r : PyStr) : PyStr :=
  let B := specParse base
  let R := specParse r
  let T : SpecUrl :=
    if R.scheme.isSome then ⟨R.scheme, R.authority, rds R.path, R.query, R.fragment⟩
    else if R.authority.isSome then
      ⟨B.scheme, R.authority, rds R.path, R.query, R.fragment⟩
    else if R.path = [] then
      ⟨B.scheme, B.authority, B.path,
        (if R.query.isSome then R.query else B.query), R.fragment⟩
    else if R.path.take 1 = ['/'] then
      ⟨B.scheme, B.authority, rds R.path, R.query, R.fragment⟩
    else
      ⟨B.scheme, B.authority, rds (specMerge B.authority.isSome B.path R.path),
        R.query, R.fragment⟩
  specRecompose T

/-- Render a list of path segments as a rooted path: one `/` before each
segment. -/
def renderOut (l : List PyStr) : PyStr := (l.map (fun s => '/' :: s)).flatten

/-- The effect of `remove_dot_segments` on a rooted path, expressed on the
path's segment stack: `.` is dropped, `..` pops (never below the root), an
ordinary segment is pushed, and a trailing `.` or `..` leaves a trailing
slash (an empty final segment).  Proof-layer characterisation shared by the
two resolvers' correctness lemmas. -/
def specStack : List PyStr → List PyStr → List PyStr
  | O, [] => O
  | O, [s] =>
    if s = ['.'] then O ++ [[]]
    else if s = ['.', '.'] then O.dropLast ++ [[]]
    else O ++ [s]
  | O, s :: r :: rest =>
    if s = ['.'] then specStack O (r :: rest)
    else if s = ['.', '.'] then specStack O.dropLast (r :: rest)
    else specStack (O ++ [s]) (r :: rest)

/-!  Helper lemmas about the lexicographic comparison and the accumulation
loops, shared by the claims below. -/

theorem lexLe_cons_cons (a b : Char) (as bs : List Char) :
    lexLe (a :: as) (b :: bs) =
      if a < b then true else if a = b then lexLe as bs else false := rfl

theorem lexLe_total : ∀ x y : List Char, lexLe x y = true ∨ lexLe y x = true
  | [], _ => Or.inl rfl
  | _ :: _, [] => Or.inr rfl
  | a :: as, b :: bs => by
    rcases lt_trichotomy a b with h | h | h
    · simp [lexLe_cons_cons, h]
    · subst h
      simpa [lexLe_cons_cons, lt_irrefl] using lexLe_total as bs
    · simp [lexLe_cons_cons, h]

theorem lexLe_trans :
    ∀ x y z : List Char, lexLe x y = true → lexLe y z = true → lexLe x z = true
  | [], _, _, _, _ => rfl
  | _ :: _, [], _, h, _ => by simp [lexLe] at h
  | _ :: _, _ :: _, [], _, h => by simp [lexLe] at h
  | a :: as, b :: bs, c :: cs, h1, h2 => by
    rcases lt_trichotomy a b with hab | hab | hab
    · rcases lt_trichotomy b c with hbc | hbc | hbc
      · simp [lexLe_cons_cons, lt_trans hab hbc]
      · subst hbc; simp [lexLe_cons_cons, hab]
      · simp [lexLe_cons_cons, lt_asymm hbc, (ne_of_lt hbc).symm] at h2
    · subst hab
      rcases lt_trichotomy a c with hac | hac | hac
      · simp [lexLe_cons_cons, hac]
      · subst hac
        simp only [lexLe_cons_cons, lt_irrefl, if_false, if_pos rfl] at h1 h2 ⊢
        exact lexLe_trans as bs cs h1 h2
      · simp [lexLe_cons_cons, lt_asymm hac, (ne_of_lt hac).symm] at h2
    · simp [lexLe_cons_cons, lt_asymm hab, (ne_of_lt hab).symm] at h1

theorem not_lex_of_lexLe :
    ∀ x y : List Char, lexLe x y = true → ¬ List.Lex (· < ·) y x
  | [], _, _, h => by cases h
  | _ :: _, [], h, _ => by simp [lexLe] at h
  | a :: as, b :: bs, h, hlex => by
    cases hlex with
    | rel hba =>
      simp [lexLe_cons_cons, lt_asymm hba, ne_of_gt hba] at h
    | cons hlex2 =>
      simp only [lexLe_cons_cons, lt_irrefl, if_false, if_pos rfl] at h
      exact not_lex_of_lexLe as bs h hlex2

/-- The boolean comparison used by the model's sort implies Mathlib's order
on `String`: the sort is by ascending lexicographic (code point) order. -/
theorem le_of_pyStrLe {a b : String} (h : pyStrLe a b = true) : a ≤ b := by
  rw [String.le_iff_toList_le]
  show a.data ≤ b.data
  rw [← not_lt]
  intro hlt
  exact not_lex_of_lexLe a.data b.data h hlt

theorem extract_links_eq (hrefs : List String) (base_url : String) :
    extract_links hrefs base_url =
      List.insertionSort (fun a b => pyStrLe a b = true) (linkFold base_url [] hrefs) :=
  rfl

theorem linkFold_cons (base_url : String) (acc : List String) (href : String)
    (rest : List String) :
    linkFold base_url acc (href :: rest) =
      linkFold base_url
        (if is_http_url href then
          (if urljoin base_url href ∈ acc then acc else acc ++ [urljoin base_url href])
        else acc) rest := rfl

theorem linkFold_nodup (base_url : String) :
    ∀ (hrefs acc : List String), acc.Nodup → (linkFold base_url acc hrefs).Nodup := by
  intro hrefs
  induction hrefs with
  | nil => intro acc h; exact h
  | cons href rest ih =>
    intro acc h
    rw [linkFold_cons]
    split_ifs with h1 h2
    · exact ih acc h
    · refine ih _ ?_
      simpa [List.nodup_append] using ⟨h, h2⟩
    · exact ih acc h

theorem extract_links_sorted_pyLe (hrefs : List String) (base_url : String) :
    List.Sorted (fun a b => pyStrLe a b = true) (extract_links hrefs base_url) := by
  haveI : IsTotal String (fun a b => pyStrLe a b = true) :=
    ⟨fun a b => lexLe_total a.data b.data⟩
  haveI : IsTrans String (fun a b => pyStrLe a b = true) :=
    ⟨fun a b c => lexLe_trans a.data b.data c.data⟩
  rw [extract_links_eq]
  exact List.sorted_insertionSort _ _

theorem extract_links_sorted (hrefs : List String) (base_url : String) :
    List.Sorted (fun a b : String => a ≤ b) (extract_links hrefs base_url) :=
  (extract_links_sorted_pyLe hrefs base_url).imp (fun h => le_of_pyStrLe h)

theorem extract_links_nodup (hrefs : List String) (base_url : String) :
    (extract_links hrefs base_url).Nodup := by
  rw [extract_links_eq]
  exact ((List.perm_insertionSort _ _).nodup_iff).mpr
    (linkFold_nodup base_url hrefs [] List.nodup_nil)

theorem runChecks_eq (verdict : String → Bool × String) (links : List String) :
    runChecks verdict links =
      (links.filter (fun l => (verdict l).1)).map (fun l => (l, (verdict l).2)) := by
  suffices h : ∀ (links : List String) (acc : List (String × String)),
      links.foldl
        (fun acc link =>
          let r := verdict link
          if r.1 then acc ++ [(link, r.2)] else acc) acc =
      acc ++ (links.filter (fun l => (verdict l).1)).map (fun l => (l, (verdict l).2)) by
    simpa using h links []
  intro links
  induction links with
  | nil => intro acc; simp
  | cons l rest ih =>
    intro acc
    by_cases hv : (verdict l).1 = true
    · simp only [List.foldl_cons, List.filter_cons, hv, if_pos, List.map_cons]
      rw [ih]
      simp
    · have hv' : (verdict l).1 = false := by
        cases hb : (verdict l).1
        · rfl
        · exact absurd hb hv
      simp only [List.foldl_cons, List.filter_cons, hv']
      rw [ih]
      simp

theorem dropWhile_eq_self_of_all (f : Char → Bool) :
    ∀ l : PyStr, (∀ c ∈ l, f c = false) → List.dropWhile f l = l
  | [], _ => rfl
  | c :: l, h => by simp [List.dropWhile_cons, h c (by simp)]

/-- Stripping a string that starts with a non-whitespace block keeps that
block: `pyStrip (p ++ rest) = p ++ r2` for some `r2`. -/
theorem pyStrip_append (p rest : PyStr) (hne : p ≠ [])
    (hall : ∀ c ∈ p, pySpaceChar c = false) :
    ∃ r2, pyStrip (p ++ rest) = p ++ r2 := by
  obtain ⟨c, p', rfl⟩ := List.exists_cons_of_ne_nil hne
  have hhead : pySpaceChar c = false := hall c (by simp)
  have h1 : List.dropWhile pySpaceChar (c :: (p' ++ rest)) = c :: (p' ++ rest) := by
    simp [List.dropWhile_cons, hhead]
  unfold pyStrip
  rw [List.cons_append, h1, ← List.cons_append, List.reverse_append,
    List.dropWhile_append]
  by_cases he : (List.dropWhile pySpaceChar rest.reverse).isEmpty
  · rw [if_pos he]
    rw [dropWhile_eq_self_of_all pySpaceChar (c :: p').reverse
      (fun x hx => hall x (List.mem_reverse.mp hx))]
    exact ⟨[], by simp⟩
  · rw [if_neg he]
    exact ⟨(List.dropWhile pySpaceChar rest.reverse).reverse, by simp⟩

theorem matchSchemeAux_concat (w r : PyStr)
    (hw : ∀ c ∈ w, isSchemeChar c = true ∧ c ≠ ':') :
    matchSchemeAux (w ++ ':' :: r) = some (w, r) := by
  induction w with
  | nil => simp [matchSchemeAux]
  | cons c w' ih =>
    have hc := hw c (by simp)
    rw [List.cons_append]
    show (if c = ':' then some ([], w' ++ ':' :: r)
      else if isSchemeChar c then
        (matchSchemeAux (w' ++ ':' :: r)).map (fun p => (c :: p.1, p.2))
      else none) = some (c :: w', r)
    rw [if_neg hc.2, if_pos hc.1, ih (fun x hx => hw x (by simp [hx]))]
    rfl

theorem removeCtl_append (a b : PyStr) :
    removeCtl (a ++ b) = removeCtl a ++ removeCtl b :=
  List.filter_append a b

theorem removeCtl_eq_self (a : PyStr) (h : ∀ c ∈ a, notCtl c = true) :
    removeCtl a = a :=
  List.filter_eq_self.mpr h

/-- The scheme component computed by `urlsplit` on input
`word ++ ':' ++ rest` where `word` is a well-formed scheme token. -/
theorem urlsplitL_scheme_word (c : Char) (w' rest dscheme : PyStr)
    (hwa : isAsciiAlpha c = true)
    (hw : ∀ x ∈ c :: w',
      isSchemeChar x = true ∧ x ≠ ':' ∧ c0OrSpace x = false ∧ notCtl x = true) :
    (urlsplitL ((c :: w') ++ ':' :: rest) dscheme).scheme =
      (c :: w').map Char.toLower := by
  have h1 : lstripC0 ((c :: w') ++ ':' :: rest) = (c :: w') ++ ':' :: rest := by
    simp [lstripC0, List.dropWhile_cons, (hw c (by simp)).2.2.1]
  have h2 : removeCtl ((c :: w') ++ ':' :: rest) =
      (c :: w') ++ ':' :: removeCtl rest := by
    rw [removeCtl_append, removeCtl_eq_self _ (fun x hx => (hw x hx).2.2.2)]
    rfl
  have h3 : splitScheme ((c :: w') ++ ':' :: removeCtl rest) =
      some (c :: w', removeCtl rest) := by
    rw [List.cons_append]
    show (if isAsciiAlpha c then matchSchemeAux (c :: (w' ++ ':' :: removeCtl rest))
      else none) = _
    rw [if_pos hwa, ← List.cons_append]
    exact matchSchemeAux_concat _ _ (fun x hx => ⟨(hw x hx).1, (hw x hx).2.1⟩)
  simp only [urlsplitL, h1, h2, h3]

/-- A stripped href of the shape `word ++ ':' ++ rest`, where `word` is a
scheme token other than `http`/`https`, is rejected by `is_http_url`. -/
theorem isHttpUrlL_scheme_word_false (c : Char) (w' rest : PyStr)
    (hwa : isAsciiAlpha c = true)
    (hw : ∀ x ∈ c :: w', isSchemeChar x = true ∧ x ≠ ':' ∧ pySpaceChar x = false ∧
      c0OrSpace x = false ∧ notCtl x = true)
    (hlow1 : (c :: w').map Char.toLower ≠ "http".data)
    (hlow2 : (c :: w').map Char.toLower ≠ "https".data) :
    isHttpUrlL ((c :: w') ++ ':' :: rest) = false := by
  obtain ⟨r2, hstrip⟩ := pyStrip_append ((c :: w') ++ [':']) rest
    (by simp)
    (by
      intro x hx
      rcases (List.mem_append.mp hx) with hx | hx
      · exact (hw x hx).2.2.1
      · simp only [List.mem_singleton] at hx
        subst hx
        decide)
  simp only [List.append_assoc, List.singleton_append, List.cons_append,
    List.nil_append] at hstrip
  have hs : (urlparseL (c :: (w' ++ ':' :: r2)) []).scheme =
      (c :: w').map Char.toLower := by
    show (urlsplitL (c :: (w' ++ ':' :: r2)) []).scheme = _
    have h0 := urlsplitL_scheme_word c w' r2 []
      hwa (fun x hx => ⟨(hw x hx).1, (hw x hx).2.1, (hw x hx).2.2.2.1,
        (hw x hx).2.2.2.2⟩)
    simpa only [List.cons_append] using h0
  have hmapne : (c :: w').map Char.toLower ≠ [] := by simp
  have hcond : ¬((c :: w').map Char.toLower = "http".data ∨
      (c :: w').map Char.toLower = "https".data) := by
    rintro (h | h)
    · exact hlow1 h
    · exact hlow2 h
  simp only [isHttpUrlL, List.cons_append, hstrip, hs]
  rw [if_neg (by simp)]
  rw [if_neg (by simpa using hcond), if_neg (by simp [hmapne])]

/-- A href starting with `#` is rejected by `is_http_url`. -/
theorem isHttpUrlL_hash_false (rest : PyStr) : isHttpUrlL ('#' :: rest) = false := by
  obtain ⟨r2, hstrip⟩ := pyStrip_append ['#'] rest (by simp) (by decide)
  simp only [List.singleton_append] at hstrip
  have hs : (urlparseL ('#' :: r2) []).scheme = [] := by
    show (urlsplitL ('#' :: r2) []).scheme = []
    have h1 : lstripC0 ('#' :: r2) = '#' :: r2 := by
      show List.dropWhile c0OrSpace ('#' :: r2) = '#' :: r2
      rw [List.dropWhile_cons, if_neg (by decide)]
    have h2 : removeCtl ('#' :: r2) = '#' :: removeCtl r2 := by
      show List.filter notCtl ('#' :: r2) = '#' :: removeCtl r2
      rw [List.filter_cons_of_pos (by decide)]
      rfl
    have h3 : splitScheme ('#' :: removeCtl r2) = none := by
      show (if isAsciiAlpha '#' then matchSchemeAux ('#' :: removeCtl r2)
        else none) = none
      rw [if_neg (by decide)]
    simp only [urlsplitL, h1, h2, h3]
    rfl
  have hrej : startsWithRejected ('#' :: r2) = true := by
    simp [startsWithRejected, rejectedPrefixes, List.isPrefixOf]
  simp only [isHttpUrlL, hstrip, hs]
  rw [if_neg (by simp)]
  rw [if_neg (by simp [hs]), if_neg (by simp [hs, hrej])]

/-- Any href that literally begins with one of the rejected prefixes is
classified as not checkable. -/
theorem is_http_url_false_of_rejected (href : String)
    (h : ∃ p ∈ rejectedPrefixes, p.isPrefixOf href.data = true) :
    is_http_url href = false := by
  obtain ⟨p, hp, hpre⟩ := h
  rw [List.isPrefixOf_iff_prefix] at hpre
  obtain ⟨t, ht⟩ := hpre
  show isHttpUrlL href.data = false
  rw [← ht]
  simp only [rejectedPrefixes, List.map_cons, List.mem_cons, List.map_nil,
    List.mem_singleton] at hp
  rcases hp with rfl | rfl | rfl | rfl | rfl | h0
  · exact isHttpUrlL_hash_false t
  · exact isHttpUrlL_scheme_word_false 'm' "ailto".data t (by decide)
      (by decide) (by decide) (by decide)
  · exact isHttpUrlL_scheme_word_false 't' "el".data t (by decide)
      (by decide) (by decide) (by decide)
  · exact isHttpUrlL_scheme_word_false 'j' "avascript".data t (by decide)
      (by decide) (by decide) (by decide)
  · exact isHttpUrlL_scheme_word_false 'd' "ata".data t (by decide)
      (by decide) (by decide) (by decide)
  · cases h0

theorem linkFold_append (base : String) (acc : List String) (l1 l2 : List String) :
    linkFold base acc (l1 ++ l2) = linkFold base (linkFold base acc l1) l2 :=
  List.foldl_append _ _ _ _

/-- A href rejected by the navigability filter contributes nothing to the
link set. -/
theorem extract_links_skip (pre post : List String) (href base : String)
    (h : is_http_url href = false) :
    extract_links (pre ++ href :: post) base = extract_links (pre ++ post) base := by
  rw [extract_links_eq, extract_links_eq]
  congr 1
  rw [linkFold_append, linkFold_append, linkFold_cons, if_neg (by simp [h])]

theorem renderOut_nil : renderOut [] = [] := rfl

theorem renderOut_append (a b : List PyStr) :
    renderOut (a ++ b) = renderOut a ++ renderOut b := by
  simp [renderOut]

theorem renderOut_concat (O : List PyStr) (s : PyStr) :
    renderOut (O ++ [s]) = renderOut O ++ '/' :: s := by
  simp [renderOut]

theorem renderOut_cons (s : PyStr) (l : List PyStr) :
    renderOut (s :: l) = '/' :: (s ++ renderOut l) := by
  simp [renderOut]

theorem joinSlash_cons (s : PyStr) (l : List PyStr) (h : l ≠ []) :
    joinSlash (s :: l) = s ++ '/' :: joinSlash l := by
  cases l with
  | nil => exact absurd rfl h
  | cons t rest => rfl

theorem renderOut_eq_slash_join (l : List PyStr) (h : l ≠ []) :
    renderOut l = '/' :: joinSlash l := by
  induction l with
  | nil => exact absurd rfl h
  | cons s rest ih =>
    cases rest with
    | nil => simp [renderOut, joinSlash]
    | cons t r2 =>
      rw [renderOut_cons, ih (by simp), joinSlash_cons s _ (by simp)]

theorem splitAll_ne_nil (ch : Char) (s : PyStr) : splitAll ch s ≠ [] := by
  cases s with
  | nil => simp [splitAll]
  | cons c rest =>
    show (match splitAll ch rest with
      | [] => [[]]
      | h :: t => if c = ch then [] :: h :: t else (c :: h) :: t) ≠ []
    cases splitAll ch rest with
    | nil => simp
    | cons h t =>
      by_cases hc : c = ch <;> simp [hc]

theorem splitAll_cons_eq (ch c : Char) (rest : PyStr) (h0 : PyStr)
    (t0 : List PyStr) (hsplit : splitAll ch rest = h0 :: t0) :
    splitAll ch (c :: rest) =
      if c = ch then [] :: h0 :: t0 else (c :: h0) :: t0 := by
  show (match splitAll ch rest with
    | [] => [[]]
    | h :: t => if c = ch then [] :: h :: t else (c :: h) :: t) = _
  rw [hsplit]

theorem splitAll_no_sep (ch : Char) :
    ∀ s : PyStr, ∀ t ∈ splitAll ch s, ch ∉ t := by
  intro s
  induction s with
  | nil =>
    intro t ht
    simp [splitAll] at ht
    simp [ht]
  | cons c rest ih =>
    rcases hsplit : splitAll ch rest with _ | ⟨h0, t0⟩
    · exact absurd hsplit (splitAll_ne_nil ch rest)
    · intro t ht
      rw [splitAll_cons_eq ch c rest h0 t0 hsplit] at ht
      by_cases hc : c = ch
      · rw [if_pos hc] at ht
        rcases List.mem_cons.mp ht with rfl | ht2
        · simp
        · exact ih t (by rw [hsplit]; exact ht2)
      · rw [if_neg hc] at ht
        rcases List.mem_cons.mp ht with rfl | ht2
        · intro hm
          rcases List.mem_cons.mp hm with h1 | h1
          · exact hc h1.symm
          · exact ih h0 (by rw [hsplit]; exact List.mem_cons_self h0 t0) h1
        · exact ih t (by rw [hsplit]; exact List.mem_cons_of_mem h0 ht2)

theorem splitAll_single (ch : Char) (s : PyStr) (h : ch ∉ s) :
    splitAll ch s = [s] := by
  induction s with
  | nil => rfl
  | cons c rest ih =>
    have hc : ¬ c = ch := fun he => h (by simp [he])
    have hr := ih (fun hm => h (by simp [hm]))
    rw [splitAll_cons_eq ch c rest rest [] hr, if_neg hc]

theorem splitAll_append_sep (ch : Char) (s y : PyStr) (h : ch ∉ s) :
    splitAll ch (s ++ ch :: y) = s :: splitAll ch y := by
  induction s with
  | nil =>
    rcases hsplit : splitAll ch y with _ | ⟨h0, t0⟩
    · exact absurd hsplit (splitAll_ne_nil ch y)
    · rw [List.nil_append, splitAll_cons_eq ch ch y h0 t0 hsplit, if_pos rfl]
  | cons c s' ih =>
    have hc : ¬ c = ch := fun he => h (by simp [he])
    have hr := ih (fun hm => h (by simp [hm]))
    rw [List.cons_append,
      splitAll_cons_eq ch c (s' ++ ch :: y) s' (splitAll ch y) hr, if_neg hc]

theorem splitAll_joinSlash :
    ∀ l : List PyStr, l ≠ [] → (∀ t ∈ l, '/' ∉ t) →
      splitAll '/' (joinSlash l) = l := by
  intro l
  induction l with
  | nil => intro h; exact absurd rfl h
  | cons s rest ih =>
    intro _ hall
    cases rest with
    | nil => exact splitAll_single '/' s (hall s (by simp))
    | cons t r2 =>
      rw [joinSlash_cons s _ (by simp),
        splitAll_append_sep '/' s _ (hall s (by simp)),
        ih (by simp) (fun x hx => hall x (by simp [hx]))]

theorem splitAll_cons_sep (ch : Char) (s : PyStr) :
    splitAll ch (ch :: s) = [] :: splitAll ch s := by
  rcases hsplit : splitAll ch s with _ | ⟨h0, t0⟩
  · exact absurd hsplit (splitAll_ne_nil ch s)
  · rw [splitAll_cons_eq ch ch s h0 t0 hsplit, if_pos rfl]

theorem splitAll_renderOut (l : List PyStr) (hne : l ≠ [])
    (hall : ∀ t ∈ l, '/' ∉ t) :
    splitAll '/' (renderOut l) = [] :: l := by
  rw [renderOut_eq_slash_join l hne, splitAll_cons_sep, splitAll_joinSlash l hne hall]

theorem splitFirst_append_sep (ch : Char) (x y : PyStr) (h : ch ∉ x) :
    splitFirst ch (x ++ ch :: y) = some (x, y) := by
  induction x with
  | nil => simp [splitFirst]
  | cons c x' ih =>
    have hc : ¬ c = ch := fun he => h (by simp [he])
    rw [List.cons_append]
    show (if c = ch then some ([], x' ++ ch :: y)
      else (splitFirst ch (x' ++ ch :: y)).map (fun p => (c :: p.1, p.2))) = _
    rw [if_neg hc, ih (fun hm => h (by simp [hm]))]
    rfl

theorem splitFirst_none (ch : Char) :
    ∀ s : PyStr, ch ∉ s → splitFirst ch s = none
  | [], _ => rfl
  | c :: rest, h => by
    have hc : ¬ c = ch := fun he => h (by simp [he])
    show (if c = ch then some ([], rest)
      else (splitFirst ch rest).map (fun p => (c :: p.1, p.2))) = none
    rw [if_neg hc, splitFirst_none ch rest (fun hm => h (by simp [hm]))]
    rfl

theorem splitLast_concat_sep (ch : Char) (a b : PyStr) (h : ch ∉ b) :
    splitLast ch (a ++ ch :: b) = some (a, b) := by
  unfold splitLast
  have hrev : (a ++ ch :: b).reverse = b.reverse ++ ch :: a.reverse := by
    rw [List.reverse_append, List.reverse_cons, List.append_assoc,
      List.singleton_append]
  rw [hrev, splitFirst_append_sep ch _ _ (fun hm => h (List.mem_reverse.mp hm))]
  simp

theorem splitLast_none (ch : Char) (s : PyStr) (h : ch ∉ s) :
    splitLast ch s = none := by
  unfold splitLast
  rw [splitFirst_none ch _ (fun hm => h (List.mem_reverse.mp hm))]
  rfl

theorem removeLastSegRFC_render (O : List PyStr) (h : ∀ t ∈ O, '/' ∉ t) :
    removeLastSegRFC (renderOut O) = renderOut O.dropLast := by
  rcases List.eq_nil_or_concat O with rfl | ⟨O', s, rfl⟩
  · simp [removeLastSegRFC, renderOut, splitLast, splitFirst]
  · rw [List.concat_eq_append] at h ⊢
    rw [renderOut_concat]
    unfold removeLastSegRFC
    rw [splitLast_concat_sep '/' _ _ (h s (by simp))]
    simp

theorem takeWhile_append_all (P : Char → Bool) (s R : PyStr)
    (h : ∀ c ∈ s, P c = true) :
    (s ++ R).takeWhile P = s ++ R.takeWhile P := by
  induction s with
  | nil => simp
  | cons c s' ih =>
    simp [List.takeWhile_cons, h c (by simp), ih (fun x hx => h x (by simp [hx]))]

theorem dropWhile_append_all (P : Char → Bool) (s R : PyStr)
    (h : ∀ c ∈ s, P c = true) :
    (s ++ R).dropWhile P = R.dropWhile P := by
  induction s with
  | nil => simp
  | cons c s' ih =>
    simp only [List.cons_append, List.dropWhile_cons, h c (by simp)]
    simp only [if_pos trivial]
    exact ih (fun x hx => h x (by simp [hx]))

theorem dropWhile_eq_nil_of_all (f : Char → Bool) :
    ∀ l : PyStr, (∀ c ∈ l, f c = true) → List.dropWhile f l = []
  | [], _ => rfl
  | c :: l, h => by
    rw [List.dropWhile_cons, if_pos (h c (by simp))]
    exact dropWhile_eq_nil_of_all f l (fun x hx => h x (by simp [hx]))

theorem rdsFuel_nil (f : Nat) (out : PyStr) : rdsFuel f out [] = out := by
  cases f <;> simp [rdsFuel]

theorem takeWhile_eq_self_of_all (P : Char → Bool) :
    ∀ l : PyStr, (∀ c ∈ l, P c = true) → l.takeWhile P = l
  | [], _ => rfl
  | c :: l, h => by
    simp [List.takeWhile_cons, h c (by simp),
      takeWhile_eq_self_of_all P l (fun x hx => h x (by simp [hx]))]

/-- RFC loop, case 2B with a following segment: `/./…` becomes `/…`. -/
theorem rds_step_B1 (n : Nat) (out t : PyStr) :
    rdsFuel (n + 1) out ('/' :: '.' :: '/' :: t) = rdsFuel n out ('/' :: t) := by
  simp [rdsFuel]

/-- RFC loop, case 2B at the end of input: `/.` becomes `/`. -/
theorem rds_step_B2 (n : Nat) (out : PyStr) :
    rdsFuel (n + 1) out ['/', '.'] = rdsFuel n out ['/'] := by
  simp [rdsFuel]

/-- RFC loop, case 2C with a following segment: `/../…` becomes `/…` and
the last output segment is removed. -/
theorem rds_step_C1 (n : Nat) (out t : PyStr) :
    rdsFuel (n + 1) out ('/' :: '.' :: '.' :: '/' :: t) =
      rdsFuel n (removeLastSegRFC out) ('/' :: t) := by
  simp [rdsFuel]

/-- RFC loop, case 2C at the end of input. -/
theorem rds_step_C2 (n : Nat) (out : PyStr) :
    rdsFuel (n + 1) out ['/', '.', '.'] = rdsFuel n (removeLastSegRFC out) ['/'] := by
  simp [rdsFuel]

/-- RFC loop, case 2E for the last segment: the whole remaining `/seg` is
moved to the output. -/
theorem rds_step_E1 (n : Nat) (out s : PyStr) (hsl : '/' ∉ s)
    (h1 : s ≠ ['.']) (h2 : s ≠ ['.', '.']) :
    rdsFuel (n + 1) out ('/' :: s) = rdsFuel n (out ++ '/' :: s) [] := by
  have hPs : ∀ c ∈ s, (decide (c ≠ '/')) = true := by
    intro c hc
    simp only [decide_eq_true_eq]
    intro he
    exact hsl (he ▸ hc)
  have htk : s.takeWhile (fun c => c ≠ '/') = s :=
    takeWhile_eq_self_of_all _ s hPs
  have hdr : s.dropWhile (fun c => c ≠ '/') = [] :=
    dropWhile_eq_nil_of_all _ s hPs
  have hc3 : ¬ ('/' :: s).take 3 = ['/', '.', '/'] := by
    intro he
    cases s with
    | nil => simp at he
    | cons a s2 =>
      cases s2 with
      | nil => simp at he
      | cons b s3 =>
        simp only [List.take_succ_cons, List.take_zero, List.cons.injEq] at he
        exact hsl (by simp [he.2.2.1])
  have hc4 : ¬ ('/' :: s) = ['/', '.'] := by
    intro he
    simp only [List.cons.injEq] at he
    exact h1 he.2
  have hc5 : ¬ ('/' :: s).take 4 = ['/', '.', '.', '/'] := by
    intro he
    cases s with
    | nil => simp at he
    | cons a s2 =>
      cases s2 with
      | nil => simp at he
      | cons b s3 =>
        cases s3 with
        | nil => simp at he
        | cons c s4 =>
          simp only [List.take_succ_cons, List.take_zero, List.cons.injEq] at he
          exact hsl (by simp [he.2.2.2.1])
  have hc6 : ¬ ('/' :: s) = ['/', '.', '.'] := by
    intro he
    simp only [List.cons.injEq] at he
    exact h2 he.2
  simp only [rdsFuel]
  rw [if_neg (by simp), if_neg (by simp), if_neg hc3, if_neg hc4, if_neg hc5,
    if_neg hc6, if_neg (by simp)]
  rw [htk, hdr]

/-- RFC loop, case 2E with a following segment: `/seg` is moved to the
output, the input continues at the next slash. -/
theorem rds_step_E2 (n : Nat) (out s J : PyStr) (hsl : '/' ∉ s)
    (h1 : s ≠ ['.']) (h2 : s ≠ ['.', '.']) :
    rdsFuel (n + 1) out ('/' :: (s ++ '/' :: J)) =
      rdsFuel n (out ++ '/' :: s) ('/' :: J) := by
  have hPs : ∀ c ∈ s, (decide (c ≠ '/')) = true := by
    intro c hc
    simp only [decide_eq_true_eq]
    intro he
    exact hsl (he ▸ hc)
  have htk : (s ++ '/' :: J).takeWhile (fun c => c ≠ '/') = s := by
    rw [takeWhile_append_all _ s _ hPs]
    simp [List.takeWhile_cons]
  have hdr : (s ++ '/' :: J).dropWhile (fun c => c ≠ '/') = '/' :: J := by
    rw [dropWhile_append_all _ s _ hPs]
    simp [List.dropWhile_cons]
  have hc3 : ¬ ('/' :: (s ++ '/' :: J)).take 3 = ['/', '.', '/'] := by
    intro he
    cases s with
    | nil => simp at he
    | cons a s2 =>
      cases s2 with
      | nil =>
        simp only [List.singleton_append, List.take_succ_cons, List.take_zero,
          List.cons.injEq] at he
        exact h1 (by simp [he.2.1])
      | cons b s3 =>
        simp only [List.cons_append, List.take_succ_cons, List.take_zero,
          List.cons.injEq] at he
        exact hsl (by simp [he.2.2.1])
  have hc4 : ¬ ('/' :: (s ++ '/' :: J)) = ['/', '.'] := by
    intro he
    simp only [List.cons.injEq] at he
    cases s with
    | nil => simp at he
    | cons a s2 => simp at he
  have hc5 : ¬ ('/' :: (s ++ '/' :: J)).take 4 = ['/', '.', '.', '/'] := by
    intro he
    cases s with
    | nil => simp at he
    | cons a s2 =>
      cases s2 with
      | nil =>
        simp only [List.singleton_append, List.take_succ_cons, List.take_zero,
          List.cons.injEq] at he
        exact absurd he.2.2.1 (by decide)
      | cons b s3 =>
        cases s3 with
        | nil =>
          simp only [List.cons_append, List.singleton_append, List.take_succ_cons,
            List.take_zero, List.cons.injEq] at he
          exact h2 (by simp [he.2.1, he.2.2.1])
        | cons c s4 =>
          simp only [List.cons_append, List.take_succ_cons, List.take_zero,
            List.cons.injEq] at he
          exact hsl (by simp [he.2.2.2.1])
  have hc6 : ¬ ('/' :: (s ++ '/' :: J)) = ['/', '.', '.'] := by
    intro he
    simp only [List.cons.injEq] at he
    cases s with
    | nil => simp at he
    | cons a s2 =>
      cases s2 with
      | nil => simp at he
      | cons b s3 => simp at he
  simp only [rdsFuel]
  rw [if_neg (by simp), if_neg (by simp), if_neg hc3, if_neg hc4, if_neg hc5,
    if_neg hc6, if_neg (by simp)]
  rw [htk, hdr]

/-- Effect of RFC 3986 `remove_dot_segments` on a rooted path given by its
segments: it computes exactly the segment stack `specStack`. -/
theorem rdsFuel_render (n : Nat) :
    ∀ (segs O : List PyStr),
      segs ≠ [] →
      (∀ t ∈ segs, '/' ∉ t) →
      (∀ t ∈ O, '/' ∉ t) →
      (renderOut segs).length ≤ n →
      rdsFuel n (renderOut O) (renderOut segs) = renderOut (specStack O segs) := by
  induction n with
  | zero =>
    intro segs O hne _ _ hlen
    exfalso
    rcases segs with _ | ⟨s, rest⟩
    · exact hne rfl
    · rw [renderOut_cons] at hlen
      simp at hlen
  | succ n ih =>
    intro segs O hne hsl hO hlen
    rcases segs with _ | ⟨s, rest⟩
    · exact absurd rfl hne
    rcases rest with _ | ⟨r, rest'⟩
    · by_cases hs1 : s = ['.']
      · subst hs1
        have hre : renderOut [['.']] = ['/', '.'] := by simp [renderOut]
        rw [hre] at hlen ⊢
        simp only [List.length_cons, List.length_nil] at hlen
        rw [rds_step_B2]
        rw [show (['/'] : PyStr) = renderOut [[]] by simp [renderOut]]
        rw [ih [[]] O (by simp) (by simp) hO (by simp [renderOut]; omega)]
        simp [specStack]
      · by_cases hs2 : s = ['.', '.']
        · subst hs2
          have hre : renderOut [['.', '.']] = ['/', '.', '.'] := by simp [renderOut]
          rw [hre] at hlen ⊢
          simp only [List.length_cons, List.length_nil] at hlen
          rw [rds_step_C2, removeLastSegRFC_render O hO]
          rw [show (['/'] : PyStr) = renderOut [[]] by simp [renderOut]]
          rw [ih [[]] O.dropLast (by simp) (by simp)
            (fun t ht => hO t ((List.dropLast_sublist O).subset ht))
            (by simp [renderOut]; omega)]
          simp [specStack]
        · have hre : renderOut [s] = '/' :: s := by simp [renderOut]
          rw [hre] at hlen ⊢
          rw [rds_step_E1 n _ s (hsl s (by simp)) hs1 hs2, rdsFuel_nil,
            ← renderOut_concat]
          simp [specStack, hs1, hs2]
    · have hrr : renderOut (r :: rest') = '/' :: (r ++ renderOut rest') :=
        renderOut_cons r rest'
      have hlen2 : (renderOut (r :: rest')).length ≤ n := by
        rw [renderOut_cons] at hlen
        rw [hrr]
        rw [hrr] at hlen
        simp only [List.length_cons, List.length_append] at hlen ⊢
        omega
      by_cases hs1 : s = ['.']
      · subst hs1
        have hre : renderOut (['.'] :: r :: rest') =
            '/' :: '.' :: '/' :: (r ++ renderOut rest') := by
          rw [renderOut_cons, hrr]
          rfl
        rw [hre]
        rw [rds_step_B1, ← hrr]
        rw [ih (r :: rest') O (by simp) (fun t ht => hsl t (by simp [ht])) hO hlen2]
        simp [specStack]
      · by_cases hs2 : s = ['.', '.']
        · subst hs2
          have hre : renderOut (['.', '.'] :: r :: rest') =
              '/' :: '.' :: '.' :: '/' :: (r ++ renderOut rest') := by
            rw [renderOut_cons, hrr]
            rfl
          rw [hre]
          rw [rds_step_C1, removeLastSegRFC_render O hO, ← hrr]
          rw [ih (r :: rest') O.dropLast (by simp)
            (fun t ht => hsl t (by simp [ht]))
            (fun t ht => hO t ((List.dropLast_sublist O).subset ht)) hlen2]
          simp [specStack]
        · have hre : renderOut (s :: r :: rest') =
              '/' :: (s ++ '/' :: (r ++ renderOut rest')) := by
            rw [renderOut_cons, hrr]
          rw [hre]
          rw [rds_step_E2 n _ s _ (hsl s (by simp)) hs1 hs2, ← hrr,
            ← renderOut_concat]
          rw [ih (r :: rest') (O ++ [s]) (by simp)
            (fun t ht => hsl t (by simp [ht]))
            (fun t ht => by
              rcases List.mem_append.mp ht with ht | ht
              · exact hO t ht
              · simp only [List.mem_singleton] at ht
                subst ht
                exact hsl t (by simp)) hlen2]
          have : specStack O (s :: r :: rest') = specStack (O ++ [s]) (r :: rest') := by
            simp [specStack, hs1, hs2]
          rw [this]

/-- RFC 3986 `remove_dot_segments` of a rooted path, segment form. -/
theorem rds_render (segs : List PyStr) (hne : segs ≠ [])
    (hsl : ∀ t ∈ segs, '/' ∉ t) :
    rds (renderOut segs) = renderOut (specStack [] segs) := by
  unfold rds
  have h := rdsFuel_render (renderOut segs).length segs [] hne hsl (by simp) le_rfl
  simpa [renderOut] using h

theorem segFold_cons (O : List PyStr) (s : PyStr) (rest : List PyStr) :
    segFold O (s :: rest) =
      if s = ['.', '.'] then segFold O.dropLast rest
      else if s = ['.'] then segFold O rest
      else segFold (O ++ [s]) rest := rfl

/-- The resolution loop of `urljoin` run with the root marker `''` at the
bottom of the stack either keeps the marker (and otherwise agrees with the
rootless run) or has popped it (and then agrees exactly). -/
theorem segFold_root :
    ∀ (segs : List PyStr) (O : List PyStr),
      segFold ([] :: O) segs = [] :: segFold O segs ∨
      segFold ([] :: O) segs = segFold O segs := by
  intro segs
  induction segs with
  | nil => intro O; exact Or.inl rfl
  | cons s rest ih =>
    intro O
    by_cases h2 : s = ['.', '.']
    · subst h2
      show segFold ([] :: O).dropLast rest = _ ∨ segFold ([] :: O).dropLast rest = _
      cases O with
      | nil => exact Or.inr rfl
      | cons o O' =>
        show segFold ([] :: (o :: O').dropLast) rest = _ ∨ _
        exact ih (o :: O').dropLast
    · by_cases h1 : s = ['.']
      · subst h1
        show segFold ([] :: O) rest = _ ∨ segFold ([] :: O) rest = _
        exact ih O
      · simp only [segFold_cons, if_neg h2, if_neg h1]
        rw [List.cons_append]
        exact ih (O ++ [s])

/-- `specStack` is the python fold plus a trailing empty segment when the
last segment is `.` or `..`. -/
theorem specStack_eq_segFold :
    ∀ (segs : List PyStr) (O : List PyStr), segs ≠ [] →
      specStack O segs =
        (if segs.getLast? = some ['.'] ∨ segs.getLast? = some ['.', '.']
         then segFold O segs ++ [[]] else segFold O segs) := by
  intro segs
  induction segs with
  | nil => intro O h; exact absurd rfl h
  | cons s rest ih =>
    intro O _
    cases rest with
    | nil =>
      show (if s = ['.'] then O ++ [[]]
        else if s = ['.', '.'] then O.dropLast ++ [[]] else O ++ [s]) = _
      rw [segFold_cons]
      by_cases h1 : s = ['.']
      · subst h1
        simp [segFold]
      · by_cases h2 : s = ['.', '.']
        · subst h2
          simp [segFold]
        · simp [h1, h2, segFold]
    | cons r rest' =>
      have hlast : (s :: r :: rest').getLast? = (r :: rest').getLast? := rfl
      show specStack O (s :: r :: rest') = _
      have hstep : specStack O (s :: r :: rest') =
          if s = ['.'] then specStack O (r :: rest')
          else if s = ['.', '.'] then specStack O.dropLast (r :: rest')
          else specStack (O ++ [s]) (r :: rest') := rfl
      rw [hstep, segFold_cons, hlast]
      by_cases h1 : s = ['.']
      · have h2 : ¬ s = ['.', '.'] := by subst h1; decide
        rw [if_pos h1, if_neg h2, if_pos h1, ih O (by simp)]
      · by_cases h2 : s = ['.', '.']
        · rw [if_neg h1, if_pos h2, if_pos h2, ih O.dropLast (by simp)]
        · rw [if_neg h1, if_neg h2, if_neg h2, if_neg h1, ih (O ++ [s]) (by simp)]

/-- Every element on the fold's stack comes from the initial stack or from
the processed segments. -/
theorem mem_segFold :
    ∀ (segs : List PyStr) (O : List PyStr) (t : PyStr),
      t ∈ segFold O segs → t ∈ O ∨ t ∈ segs := by
  intro segs
  induction segs with
  | nil => intro O t ht; exact Or.inl ht
  | cons s rest ih =>
    intro O t ht
    rw [segFold_cons] at ht
    by_cases h2 : s = ['.', '.']
    · rw [if_pos h2] at ht
      rcases ih O.dropLast t ht with h | h
      · exact Or.inl ((List.dropLast_sublist O).subset h)
      · exact Or.inr (by simp [h])
    · by_cases h1 : s = ['.']
      · rw [if_neg h2, if_pos h1] at ht
        rcases ih O t ht with h | h
        · exact Or.inl h
        · exact Or.inr (by simp [h])
      · rw [if_neg h2, if_neg h1] at ht
        rcases ih (O ++ [s]) t ht with h | h
        · rcases List.mem_append.mp h with h | h
          · exact Or.inl h
          · simp only [List.mem_singleton] at h
            exact Or.inr (by simp [h])
        · exact Or.inr (by simp [h])

/-- When the last segment is an ordinary one, the fold ends with a push and
its result is nonempty. -/
theorem segFold_ne_nil :
    ∀ (segs : List PyStr) (O : List PyStr),
      segs ≠ [] → segs.getLast? ≠ some ['.'] → segs.getLast? ≠ some ['.', '.'] →
      segFold O segs ≠ [] := by
  intro segs
  induction segs with
  | nil => intro O h; exact absurd rfl h
  | cons s rest ih =>
    intro O _ hl1 hl2
    cases rest with
    | nil =>
      have h1 : ¬ s = ['.'] := fun he => hl1 (by simp [he])
      have h2 : ¬ s = ['.', '.'] := fun he => hl2 (by simp [he])
      rw [segFold_cons, if_neg h2, if_neg h1]
      simp [segFold]
    | cons r rest' =>
      have hl1' : (r :: rest').getLast? ≠ some ['.'] := hl1
      have hl2' : (r :: rest').getLast? ≠ some ['.', '.'] := hl2
      rw [segFold_cons]
      by_cases h2 : s = ['.', '.']
      · rw [if_pos h2]; exact ih _ (by simp) hl1' hl2'
      · by_cases h1 : s = ['.']
        · rw [if_neg h2, if_pos h1]; exact ih _ (by simp) hl1' hl2'
        · rw [if_neg h2, if_neg h1]; exact ih _ (by simp) hl1' hl2'

/-- Head invariant of the fold: the stack is empty, or the single empty
segment, or headed by a nonempty segment (an empty segment is only ever
pushed last, onto an empty stack, when the final path segment is empty). -/
theorem segFold_head :
    ∀ (segs : List PyStr) (O : List PyStr),
      (∀ t ∈ segs.dropLast, t ≠ []) →
      (O = [] ∨ ∃ h0 t0, O = h0 :: t0 ∧ h0 ≠ []) →
      (segFold O segs = [] ∨ segFold O segs = [[]] ∨
        ∃ h0 t0, segFold O segs = h0 :: t0 ∧ h0 ≠ []) := by
  intro segs
  induction segs with
  | nil =>
    intro O _ hO
    rcases hO with rfl | ⟨h0, t0, rfl, hne⟩
    · exact Or.inl rfl
    · exact Or.inr (Or.inr ⟨h0, t0, rfl, hne⟩)
  | cons s rest ih =>
    intro O hint hO
    rw [segFold_cons]
    by_cases h2 : s = ['.', '.']
    · rw [if_pos h2]
      refine ih _ (fun t ht => ?_) ?_
      · exact hint t (by
          cases rest with
          | nil => simp at ht
          | cons r rest' => simpa using Or.inr (by simpa using ht))
      · rcases hO with rfl | ⟨h0, t0, rfl, hne⟩
        · exact Or.inl rfl
        · cases t0 with
          | nil => exact Or.inl rfl
          | cons u t1 =>
            exact Or.inr ⟨h0, (u :: t1).dropLast, by simp, hne⟩
    · by_cases h1 : s = ['.']
      · rw [if_neg h2, if_pos h1]
        refine ih _ (fun t ht => ?_) hO
        exact hint t (by
          cases rest with
          | nil => simp at ht
          | cons r rest' => simpa using Or.inr (by simpa using ht))
      · rw [if_neg h2, if_neg h1]
        cases rest with
        | nil =>
          show segFold (O ++ [s]) [] = [] ∨ _
          rcases hO with rfl | ⟨h0, t0, rfl, hne⟩
          · by_cases hs : s = []
            · subst hs; exact Or.inr (Or.inl rfl)
            · exact Or.inr (Or.inr ⟨s, [], by simp [segFold], hs⟩)
          · exact Or.inr (Or.inr ⟨h0, t0 ++ [s], by simp [segFold], hne⟩)
        | cons r rest' =>
          have hs : s ≠ [] := hint s (by simp)
          refine ih _ (fun t ht => ?_) ?_
          · exact hint t (by simpa using Or.inr (by simpa using ht))
          · rcases hO with rfl | ⟨h0, t0, rfl, hne⟩
            · exact Or.inr ⟨s, [], by simp, hs⟩
            · exact Or.inr ⟨h0, t0 ++ [s], by simp, hne⟩

theorem joinSlash_ne_nil_of_head (h0 : PyStr) (t0 : List PyStr) (h : h0 ≠ []) :
    joinSlash (h0 :: t0) ≠ [] := by
  cases t0 with
  | nil => exact h
  | cons u t1 =>
    rw [joinSlash_cons h0 _ (by simp)]
    simp [h]

/-- Python's `'/'.join(resolved) or '/'` followed by `urlunsplit`'s leading
slash repair produces the rooted rendering of the stack, provided the stack
is the lone empty segment or is headed by a nonempty one. -/
theorem repairedJoin_eq_renderOut (H : List PyStr) (hne : H ≠ [])
    (hfree : ∀ t ∈ H, '/' ∉ t)
    (hhead : H = [[]] ∨ ∃ h0 t0, H = h0 :: t0 ∧ h0 ≠ []) :
    (if (if joinSlash H = [] then ['/'] else joinSlash H) ≠ [] &&
        (if joinSlash H = [] then ['/'] else joinSlash H).take 1 ≠ ['/'] then
      '/' :: (if joinSlash H = [] then ['/'] else joinSlash H)
    else (if joinSlash H = [] then ['/'] else joinSlash H)) = renderOut H := by
  rcases hhead with rfl | ⟨h0, t0, rfl, hh0⟩
  · simp [joinSlash, renderOut]
  · have hjne : joinSlash (h0 :: t0) ≠ [] := joinSlash_ne_nil_of_head h0 t0 hh0
    rw [if_neg hjne]
    obtain ⟨c, h0', rfl⟩ := List.exists_cons_of_ne_nil hh0
    have hcs : c ≠ '/' := fun he => hfree (c :: h0') (by simp) (by simp [he])
    have hjcons : joinSlash ((c :: h0') :: t0) = c :: (h0' ++
        (if t0 = [] then [] else '/' :: joinSlash t0)) := by
      cases t0 with
      | nil => simp [joinSlash]
      | cons u t1 =>
        rw [joinSlash_cons _ _ (by simp)]
        simp
    rw [hjcons]
    rw [if_pos (by simp [hcs])]
    rw [renderOut_eq_slash_join _ (by simp)]
    rw [hjcons]

/-- Same, for a stack that still carries the root marker: the join is
already rooted and needs no repair. -/
theorem rootedJoin_eq_renderOut (H : List PyStr) (hne : H ≠ []) :
    (if (if joinSlash ([] :: H) = [] then ['/'] else joinSlash ([] :: H)) ≠ [] &&
        (if joinSlash ([] :: H) = [] then ['/'] else joinSlash ([] :: H)).take 1 ≠ ['/'] then
      '/' :: (if joinSlash ([] :: H) = [] then ['/'] else joinSlash ([] :: H))
    else (if joinSlash ([] :: H) = [] then ['/'] else joinSlash ([] :: H))) =
      renderOut H := by
  have hj : joinSlash ([] :: H) = '/' :: joinSlash H := by
    rw [joinSlash_cons _ _ hne]
    simp
  rw [hj, if_neg (by simp), if_neg (by simp)]
  exact (renderOut_eq_slash_join H hne).symm

/-- The complete path computation of `urljoin`'s segment branch (fold over
`'' :: segs`, trailing-slash fix-up, `'/'.join` with the `or '/'` fallback,
and `urlunsplit`'s leading-slash repair) equals the rooted rendering of the
RFC segment stack. -/
theorem pyResolvePath_spec (segs : List PyStr) (hne : segs ≠ [])
    (hsl : ∀ t ∈ segs, '/' ∉ t)
    (hint : ∀ t ∈ segs.dropLast, t ≠ []) :
    (let segments := ([] : PyStr) :: segs
     let resolved := segFold [] segments
     let resolved2 :=
       if segments.getLast? = some ['.'] || segments.getLast? = some ['.', '.'] then
         resolved ++ [[]]
       else resolved
     let path := joinSlash resolved2
     let path2 := if path = [] then ['/'] else path
     if path2 ≠ [] && path2.take 1 ≠ ['/'] then '/' :: path2 else path2) =
    renderOut (specStack [] segs) := by
  have hlast : (([] : PyStr) :: segs).getLast? = segs.getLast? := by
    cases segs with
    | nil => exact absurd rfl hne
    | cons a l => rfl
  have hroot0 : segFold [] (([] : PyStr) :: segs) = segFold [[]] segs := by
    rw [segFold_cons, if_neg (by decide), if_neg (by decide)]
    rfl
  have hspec := specStack_eq_segFold segs [] hne
  show (let resolved := segFold [] (([] : PyStr) :: segs)
     let resolved2 :=
       if (([] : PyStr) :: segs).getLast? = some ['.'] ||
           (([] : PyStr) :: segs).getLast? = some ['.', '.'] then
         resolved ++ [[]]
       else resolved
     let path := joinSlash resolved2
     let path2 := if path = [] then ['/'] else path
     if path2 ≠ [] && path2.take 1 ≠ ['/'] then '/' :: path2 else path2) = _
  simp only [hroot0, hlast]
  by_cases hc : segs.getLast? = some ['.'] ∨ segs.getLast? = some ['.', '.']
  · have hcb : (segs.getLast? = some ['.'] || segs.getLast? = some ['.', '.']) = true := by
      rcases hc with hc | hc <;> simp [hc]
    have hGfree : ∀ t ∈ segFold [] segs ++ [[]], '/' ∉ t := by
      intro t ht
      rcases List.mem_append.mp ht with ht | ht
      · rcases mem_segFold segs [] t ht with h | h
        · simp at h
        · exact hsl t h
      · simp only [List.mem_singleton] at ht
        simp [ht]
    have hGel : ∀ t ∈ segFold [] segs, t ≠ [] := by
      intro t ht hteq
      subst hteq
      rcases mem_segFold segs [] [] ht with h | h
      · simp at h
      · rcases List.mem_append.mp
          ((List.dropLast_append_getLast hne) ▸ h) with h2 | h2
        · exact hint [] h2 rfl
        · simp only [List.mem_singleton] at h2
          rcases hc with hc | hc <;>
            rw [List.getLast?_eq_getLast _ hne] at hc <;>
            · injection hc with hc2
              rw [← h2] at hc2
              simp at hc2
    rw [hspec, if_pos hc]
    simp only [hcb, if_pos rfl]
    rcases segFold_root segs [] with hA | hB
    · rw [hA, List.cons_append]
      exact rootedJoin_eq_renderOut _ (by simp)
    · rw [hB]
      refine repairedJoin_eq_renderOut _ (by simp) hGfree ?_
      rcases hG : segFold [] segs with _ | ⟨g0, G'⟩
      · exact Or.inl (by simp)
      · exact Or.inr ⟨g0, G' ++ [[]], by simp, hGel g0 (by rw [hG]; simp)⟩
  · have hcb : (segs.getLast? = some ['.'] || segs.getLast? = some ['.', '.']) = false := by
      push_neg at hc
      simp [hc.1, hc.2]
    have hl1 : segs.getLast? ≠ some ['.'] := fun h => hc (Or.inl h)
    have hl2 : segs.getLast? ≠ some ['.', '.'] := fun h => hc (Or.inr h)
    have hGne : segFold [] segs ≠ [] := segFold_ne_nil segs [] hne hl1 hl2
    have hGfree : ∀ t ∈ segFold [] segs, '/' ∉ t := by
      intro t ht
      rcases mem_segFold segs [] t ht with h | h
      · simp at h
      · exact hsl t h
    rw [hspec, if_neg hc]
    simp only [hcb, Bool.false_eq_true, if_false]
    rcases segFold_root segs [] with hA | hB
    · rw [hA]
      exact rootedJoin_eq_renderOut _ hGne
    · rw [hB]
      refine repairedJoin_eq_renderOut _ hGne hGfree ?_
      rcases segFold_head segs [] hint (Or.inl rfl) with h | h | h
      · exact absurd h hGne
      · exact Or.inl h
      · exact Or.inr h

theorem charGT32_c0 (c : Char) (h : 32 < c.toNat) : c0OrSpace c = false := by
  simp only [c0OrSpace, decide_eq_false_iff_not, not_le]
  exact h

theorem charGT32_notCtl (c : Char) (h : 32 < c.toNat) : notCtl c = true := by
  simp only [notCtl, Bool.not_eq_true', Bool.or_eq_false_iff, decide_eq_false_iff_not]
  refine ⟨⟨fun he => ?_, fun he => ?_⟩, fun he => ?_⟩ <;>
    (subst he; exact absurd h (by decide))

theorem lstripC0_eq_self (s : PyStr) (h : ∀ c ∈ s, 32 < c.toNat) :
    lstripC0 s = s :=
  dropWhile_eq_self_of_all _ s (fun c hc => charGT32_c0 c (h c hc))

theorem removeCtl_eq_self_of_gt32 (s : PyStr) (h : ∀ c ∈ s, 32 < c.toNat) :
    removeCtl s = s :=
  removeCtl_eq_self s (fun c hc => charGT32_notCtl c (h c hc))

theorem contains_eq_false_of_not_mem (l : PyStr) (ch : Char) (h : ch ∉ l) :
    l.contains ch = false := by
  simpa using h

theorem matchSchemeAux_mono :
    ∀ (x y a b : PyStr), matchSchemeAux x = some (a, b) →
      matchSchemeAux (x ++ y) = some (a, b ++ y)
  | [], _, _, _, h => by simp [matchSchemeAux] at h
  | c :: rest, y, a, b, h => by
    rw [List.cons_append]
    rw [show matchSchemeAux (c :: rest) =
        (if c = ':' then some ([], rest)
         else if isSchemeChar c then
           (matchSchemeAux rest).map (fun p => (c :: p.1, p.2))
         else none) from rfl] at h
    rw [show matchSchemeAux (c :: (rest ++ y)) =
        (if c = ':' then some ([], rest ++ y)
         else if isSchemeChar c then
           (matchSchemeAux (rest ++ y)).map (fun p => (c :: p.1, p.2))
         else none) from rfl]
    by_cases hc : c = ':'
    · rw [if_pos hc] at h
      rw [if_pos hc]
      obtain ⟨h1, h2⟩ : ([] : PyStr) = a ∧ rest = b := by
        simpa using h
      rw [← h1, ← h2]
    · by_cases hs : isSchemeChar c
      · rw [if_neg hc, if_pos hs] at h
        rw [if_neg hc, if_pos hs]
        rcases hm : matchSchemeAux rest with _ | ⟨a2, b2⟩
        · rw [hm] at h
          simp at h
        · rw [hm] at h
          obtain ⟨h1, h2⟩ : c :: a2 = a ∧ b2 = b := by
            simpa using h
          rw [matchSchemeAux_mono rest y a2 b2 hm]
          show some (c :: a2, b2 ++ y) = some (a, b ++ y)
          rw [h1, h2]
      · rw [if_neg hc, if_neg hs] at h
        cases h

theorem splitScheme_of_append_none (x y : PyStr)
    (h : splitScheme (x ++ y) = none) : splitScheme x = none := by
  cases x with
  | nil => rfl
  | cons c xs =>
    show (if isAsciiAlpha c then matchSchemeAux (c :: xs) else none) = none
    by_cases hca : isAsciiAlpha c
    · rw [if_pos hca]
      have h2 : matchSchemeAux ((c :: xs) ++ y) = none := by
        rw [List.cons_append] at h
        revert h
        show (if isAsciiAlpha c then matchSchemeAux (c :: xs ++ y) else none) = none → _
        rw [if_pos hca]
        exact fun h => by rw [List.cons_append]; exact h
      rcases hm : matchSchemeAux (c :: xs) with _ | ⟨a, b⟩
      · rfl
      · exact absurd (matchSchemeAux_mono _ y a b hm) (by rw [h2]; simp)
    · rw [if_neg hca]

theorem filterInteriorAux_id :
    ∀ l : List PyStr, (∀ t ∈ l.dropLast, t ≠ []) → filterInteriorAux l = l
  | [], _ => rfl
  | [a], _ => rfl
  | a :: b :: rest, h => by
    show (if a = [] then filterInteriorAux (b :: rest)
      else a :: filterInteriorAux (b :: rest)) = a :: b :: rest
    rw [if_neg (h a (by simp)), filterInteriorAux_id (b :: rest)
      (fun t ht => h t (by simpa using Or.inr (by simpa using ht)))]

theorem filterInteriorAux_append (A rest : List PyStr)
    (hA : ∀ t ∈ A, t ≠ []) (hr : rest ≠ []) :
    filterInteriorAux (A ++ rest) = A ++ filterInteriorAux rest := by
  induction A with
  | nil => simp
  | cons a A' ih =>
    have hne : A' ++ rest ≠ [] := by
      intro he
      rcases List.append_eq_nil.mp he with ⟨_, h2⟩
      exact hr h2
    rw [List.cons_append]
    rcases hx : A' ++ rest with _ | ⟨u, v⟩
    · exact absurd hx hne
    · show (if a = [] then filterInteriorAux (u :: v)
        else a :: filterInteriorAux (u :: v)) = _
      rw [if_neg (hA a (by simp)), ← hx, ih (fun t ht => hA t (by simp [ht]))]
      rfl

theorem filterInteriorAux_cons_nil (rest : List PyStr) (h : rest ≠ []) :
    filterInteriorAux ([] :: rest) = filterInteriorAux rest := by
  cases rest with
  | nil => exact absurd rfl h
  | cons u v =>
    show (if ([] : PyStr) = [] then filterInteriorAux (u :: v)
      else [] :: filterInteriorAux (u :: v)) = _
    rw [if_pos rfl]

theorem splitScheme_word (w R : PyStr) (hne : w ≠ [])
    (halpha : isAsciiAlpha w.headI = true)
    (hw : ∀ c ∈ w, isSchemeChar c = true ∧ c ≠ ':') :
    splitScheme (w ++ ':' :: R) = some (w, R) := by
  obtain ⟨c, w', rfl⟩ := List.exists_cons_of_ne_nil hne
  rw [List.cons_append]
  show (if isAsciiAlpha c then matchSchemeAux (c :: (w' ++ ':' :: R)) else none) = _
  rw [if_pos (by simpa using halpha), ← List.cons_append]
  exact matchSchemeAux_concat _ _ hw

theorem mem_joinSlash :
    ∀ (l : List PyStr) (c : Char), c ∈ joinSlash l → c = '/' ∨ ∃ t ∈ l, c ∈ t
  | [], c, h => by simp [joinSlash] at h
  | [s], c, h => Or.inr ⟨s, by simp, h⟩
  | s :: r :: rest, c, h => by
    rw [joinSlash_cons s _ (by simp)] at h
    rcases List.mem_append.mp h with h | h
    · exact Or.inr ⟨s, by simp, h⟩
    · rcases List.mem_cons.mp h with rfl | h
      · exact Or.inl rfl
      · rcases mem_joinSlash (r :: rest) c h with h | ⟨t, ht, hc⟩
        · exact Or.inl h
        · exact Or.inr ⟨t, List.mem_cons_of_mem s ht, hc⟩

theorem mem_renderOut (l : List PyStr) (c : Char) (h : c ∈ renderOut l) :
    c = '/' ∨ ∃ t ∈ l, c ∈ t := by
  rcases hl : l with _ | ⟨s, rest⟩
  · subst hl
    simp [renderOut] at h
  · subst hl
    rw [renderOut_eq_slash_join _ (by simp)] at h
    rcases List.mem_cons.mp h with rfl | h
    · exact Or.inl rfl
    · exact mem_joinSlash _ c h

theorem dropLast_append_ne_nil (A B : List PyStr) (h : B ≠ []) :
    (A ++ B).dropLast = A ++ B.dropLast := by
  rcases List.eq_nil_or_concat B with rfl | ⟨B', b, rfl⟩
  · exact absurd rfl h
  · rw [List.concat_eq_append, ← List.append_assoc, List.dropLast_concat,
      List.dropLast_concat]

theorem renderOut_ne_nil (l : List PyStr) (h : l ≠ []) : renderOut l ≠ [] := by
  rw [renderOut_eq_slash_join l h]
  simp

/-- `urlsplit` on a well-formed absolute http(s) base URL recovers its
components. -/
theorem urlsplitL_base (sch host bpath bq : PyStr)
    (hsch : sch = "http".data ∨ sch = "https".data)
    (hhost : ∀ c ∈ host, 32 < c.toNat ∧ netlocDelim c = false)
    (hbpath0 : bpath = [] ∨ bpath.take 1 = ['/'])
    (hbpath : ∀ c ∈ bpath, 32 < c.toNat ∧ c ≠ '?' ∧ c ≠ '#')
    (hbq : ∀ c ∈ bq, 32 < c.toNat ∧ c ≠ '#') :
    urlsplitL (sch ++ ':' :: '/' :: '/' ::
        (host ++ bpath ++ (if bq = [] then [] else '?' :: bq))) [] =
      ⟨sch, host, bpath, bq, []⟩ := by
  have hschc : ∀ c ∈ sch, isSchemeChar c = true ∧ c ≠ ':' ∧ 32 < c.toNat := by
    rcases hsch with rfl | rfl <;> decide
  have hq32 : ∀ c ∈ (if bq = [] then [] else '?' :: bq), 32 < c.toNat := by
    by_cases hbq0 : bq = []
    · simp [hbq0]
    · rw [if_neg hbq0]
      intro c hc
      rcases List.mem_cons.mp hc with rfl | hc
      · decide
      · exact (hbq c hc).1
  have hall : ∀ c ∈ sch ++ ':' :: '/' :: '/' ::
      (host ++ bpath ++ (if bq = [] then [] else '?' :: bq)), 32 < c.toNat := by
    intro c hc
    rcases List.mem_append.mp hc with hc | hc
    · exact (hschc c hc).2.2
    · rcases List.mem_cons.mp hc with rfl | hc
      · decide
      · rcases List.mem_cons.mp hc with rfl | hc
        · decide
        · rcases List.mem_cons.mp hc with rfl | hc
          · decide
          · rcases List.mem_append.mp hc with hc | hc
            · rcases List.mem_append.mp hc with hc | hc
              · exact (hhost c hc).1
              · exact (hbpath c hc).1
            · exact hq32 c hc
  have hclean : removeCtl (lstripC0 (sch ++ ':' :: '/' :: '/' ::
      (host ++ bpath ++ (if bq = [] then [] else '?' :: bq)))) =
      sch ++ ':' :: '/' :: '/' ::
      (host ++ bpath ++ (if bq = [] then [] else '?' :: bq)) := by
    rw [lstripC0_eq_self _ hall, removeCtl_eq_self_of_gt32 _ hall]
  have hsplit : splitScheme (sch ++ ':' :: '/' :: '/' ::
      (host ++ bpath ++ (if bq = [] then [] else '?' :: bq))) =
      some (sch, '/' :: '/' ::
        (host ++ bpath ++ (if bq = [] then [] else '?' :: bq))) :=
    splitScheme_word sch _ (by rcases hsch with rfl | rfl <;> decide)
      (by rcases hsch with rfl | rfl <;> decide)
      (fun c hc => ⟨(hschc c hc).1, (hschc c hc).2.1⟩)
  have hlow : sch.map Char.toLower = sch := by
    rcases hsch with rfl | rfl <;> decide
  have hPtrue : ∀ c ∈ host, (!netlocDelim c) = true := by
    intro c hc
    rw [(hhost c hc).2]
    rfl
  have htake0 : (bpath ++ (if bq = [] then [] else '?' :: bq)).takeWhile
      (fun c => !netlocDelim c) = [] := by
    rcases hbpath0 with rfl | hb1
    · by_cases hbq0 : bq = []
      · simp [hbq0]
      · rw [if_neg hbq0]
        simp [List.takeWhile_cons, netlocDelim]
    · cases bpath with
      | nil => simp at hb1
      | cons c bp' =>
        have hc : c = '/' := by simpa using hb1
        subst hc
        simp [List.takeWhile_cons, netlocDelim]
  have hdrop0 : (bpath ++ (if bq = [] then [] else '?' :: bq)).dropWhile
      (fun c => !netlocDelim c) =
      bpath ++ (if bq = [] then [] else '?' :: bq) := by
    rcases hbpath0 with rfl | hb1
    · by_cases hbq0 : bq = []
      · simp [hbq0]
      · rw [if_neg hbq0]
        simp [List.dropWhile_cons, netlocDelim]
    · cases bpath with
      | nil => simp at hb1
      | cons c bp' =>
        have hc : c = '/' := by simpa using hb1
        subst hc
        simp [List.dropWhile_cons, netlocDelim]
  have htakeW : ((host ++ bpath ++ (if bq = [] then [] else '?' :: bq)).takeWhile
      (fun c => !netlocDelim c)) = host := by
    rw [List.append_assoc, takeWhile_append_all _ _ _ hPtrue, htake0,
      List.append_nil]
  have hdropW : ((host ++ bpath ++ (if bq = [] then [] else '?' :: bq)).dropWhile
      (fun c => !netlocDelim c)) =
      bpath ++ (if bq = [] then [] else '?' :: bq) := by
    rw [List.append_assoc, dropWhile_append_all _ _ _ hPtrue, hdrop0]
  have hnohash : '#' ∉ bpath ++ (if bq = [] then [] else '?' :: bq) := by
    intro hm
    rcases List.mem_append.mp hm with hm | hm
    · exact (hbpath '#' hm).2.2 rfl
    · by_cases hbq0 : bq = []
      · rw [if_pos hbq0] at hm
        simp at hm
      · rw [if_neg hbq0] at hm
        rcases List.mem_cons.mp hm with he | hm
        · exact absurd he (by decide)
        · exact (hbq '#' hm).2 rfl
  have hfrag : splitFirst '#' (bpath ++ (if bq = [] then [] else '?' :: bq)) =
      none := splitFirst_none '#' _ hnohash
  have hnoq : '?' ∉ bpath := fun hm => (hbpath '?' hm).2.1 rfl
  have hqsplit : splitFirst '?' (bpath ++ (if bq = [] then [] else '?' :: bq)) =
      (if bq = [] then none else some (bpath, bq)) := by
    by_cases hbq0 : bq = []
    · rw [if_pos hbq0, if_pos hbq0, List.append_nil, splitFirst_none '?' bpath hnoq]
    · rw [if_neg hbq0, if_neg hbq0, splitFirst_append_sep '?' bpath bq hnoq]
  simp only [urlsplitL, hclean, hsplit, hlow]
  simp only [List.take_succ_cons, List.take_zero, List.drop_succ_cons,
    List.drop_zero, htakeW, hdropW]
  by_cases hbq0 : bq = []
  · have h1 : splitFirst '#' bpath = none :=
      splitFirst_none '#' _ (fun hm => (hbpath '#' hm).2.2 rfl)
    have h2 : splitFirst '?' bpath = none := splitFirst_none '?' bpath hnoq
    simp [hbq0, h1, h2]
  · have h1 : splitFirst '#' (bpath ++ '?' :: bq) = none := by
      refine splitFirst_none '#' _ ?_
      intro hm
      rcases List.mem_append.mp hm with hm | hm
      · exact (hbpath '#' hm).2.2 rfl
      · rcases List.mem_cons.mp hm with he | hm
        · exact absurd he (by decide)
        · exact (hbq '#' hm).2 rfl
    have h2 : splitFirst '?' (bpath ++ '?' :: bq) = some (bpath, bq) :=
      splitFirst_append_sep '?' bpath bq hnoq
    simp [hbq0, h1, h2]

/-- `urlparse` on a well-formed absolute http(s) base URL. -/
theorem urlparseL_base (sch host bpath bq : PyStr)
    (hsch : sch = "http".data ∨ sch = "https".data)
    (hhost : ∀ c ∈ host, 32 < c.toNat ∧ netlocDelim c = false)
    (hbpath0 : bpath = [] ∨ bpath.take 1 = ['/'])
    (hbpath : ∀ c ∈ bpath, 32 < c.toNat ∧ c ≠ '?' ∧ c ≠ '#')
    (hbsemi : ';' ∉ bpath)
    (hbq : ∀ c ∈ bq, 32 < c.toNat ∧ c ≠ '#') :
    urlparseL (sch ++ ':' :: '/' :: '/' ::
        (host ++ bpath ++ (if bq = [] then [] else '?' :: bq))) [] =
      ⟨sch, host, bpath, [], bq, []⟩ := by
  unfold urlparseL
  rw [urlsplitL_base sch host bpath bq hsch hhost hbpath0 hbpath hbq]
  simp only [contains_eq_false_of_not_mem bpath ';' hbsemi, Bool.and_false,
    Bool.false_eq_true, if_false]

/-- The RFC parser on the same well-formed absolute http(s) base URL. -/
theorem specParse_base (sch host bpath bq : PyStr)
    (hsch : sch = "http".data ∨ sch = "https".data)
    (hhost : ∀ c ∈ host, 32 < c.toNat ∧ netlocDelim c = false)
    (hbpath0 : bpath = [] ∨ bpath.take 1 = ['/'])
    (hbpath : ∀ c ∈ bpath, 32 < c.toNat ∧ c ≠ '?' ∧ c ≠ '#')
    (hbq : ∀ c ∈ bq, 32 < c.toNat ∧ c ≠ '#') :
    specParse (sch ++ ':' :: '/' :: '/' ::
        (host ++ bpath ++ (if bq = [] then [] else '?' :: bq))) =
      ⟨some sch, some host, bpath, (if bq = [] then none else some bq), none⟩ := by
  have hschc : ∀ c ∈ sch, isSchemeChar c = true ∧ c ≠ ':' ∧ c ≠ '#' ∧ c ≠ '?' := by
    rcases hsch with rfl | rfl <;> decide
  have hnohashp : '#' ∉ sch ++ ':' :: '/' :: '/' :: (host ++ bpath) := by
    intro hm
    rcases List.mem_append.mp hm with hm | hm
    · exact (hschc '#' hm).2.2.1 rfl
    · rcases List.mem_cons.mp hm with he | hm
      · exact absurd he (by decide)
      · rcases List.mem_cons.mp hm with he | hm
        · exact absurd he (by decide)
        · rcases List.mem_cons.mp hm with he | hm
          · exact absurd he (by decide)
          · rcases List.mem_append.mp hm with hm | hm
            · have := (hhost '#' hm).2
              simp [netlocDelim] at this
            · exact (hbpath '#' hm).2.2 rfl
  have hnoqp : '?' ∉ sch ++ ':' :: '/' :: '/' :: (host ++ bpath) := by
    intro hm
    rcases List.mem_append.mp hm with hm | hm
    · exact (hschc '?' hm).2.2.2 rfl
    · rcases List.mem_cons.mp hm with he | hm
      · exact absurd he (by decide)
      · rcases List.mem_cons.mp hm with he | hm
        · exact absurd he (by decide)
        · rcases List.mem_cons.mp hm with he | hm
          · exact absurd he (by decide)
          · rcases List.mem_append.mp hm with hm | hm
            · have := (hhost '?' hm).2
              simp [netlocDelim] at this
            · exact (hbpath '?' hm).2.1 rfl
  have hscheme : splitScheme (sch ++ ':' :: '/' :: '/' :: (host ++ bpath)) =
      some (sch, '/' :: '/' :: (host ++ bpath)) :=
    splitScheme_word sch _ (by rcases hsch with rfl | rfl <;> decide)
      (by rcases hsch with rfl | rfl <;> decide)
      (fun c hc => ⟨(hschc c hc).1, (hschc c hc).2.1⟩)
  have hPtrue : ∀ c ∈ host, (decide (c ≠ '/')) = true := by
    intro c hc
    have h2 := (hhost c hc).2
    simp only [netlocDelim, Bool.or_eq_false_iff, decide_eq_false_iff_not] at h2
    simp [h2.1.1]
  have htake0 : bpath.takeWhile (fun c => decide (c ≠ '/')) = [] := by
    rcases hbpath0 with rfl | hb1
    · rfl
    · cases bpath with
      | nil => simp at hb1
      | cons c bp' =>
        have hc : c = '/' := by simpa using hb1
        subst hc
        simp [List.takeWhile_cons]
  have hdrop0 : bpath.dropWhile (fun c => decide (c ≠ '/')) = bpath := by
    rcases hbpath0 with rfl | hb1
    · rfl
    · cases bpath with
      | nil => simp at hb1
      | cons c bp' =>
        have hc : c = '/' := by simpa using hb1
        subst hc
        simp [List.dropWhile_cons]
  have htakeA : ((host ++ bpath).takeWhile (fun c => decide (c ≠ '/'))) = host := by
    rw [takeWhile_append_all _ _ _ hPtrue, htake0, List.append_nil]
  have hdropA : ((host ++ bpath).dropWhile (fun c => decide (c ≠ '/'))) = bpath := by
    rw [dropWhile_append_all _ _ _ hPtrue, hdrop0]
  by_cases hbq0 : bq = []
  · rw [if_pos hbq0, if_pos hbq0, List.append_nil]
    have hfr : splitFirst '#' (sch ++ ':' :: '/' :: '/' :: (host ++ bpath)) =
        none := splitFirst_none '#' _ hnohashp
    have hqr : splitFirst '?' (sch ++ ':' :: '/' :: '/' :: (host ++ bpath)) =
        none := splitFirst_none '?' _ hnoqp
    simp only [specParse, hfr, hqr, hscheme, List.take_succ_cons, List.take_zero,
      List.drop_succ_cons, List.drop_zero, htakeA, hdropA]
    simp
  · rw [if_neg hbq0, if_neg hbq0]
    have hassoc : sch ++ ':' :: '/' :: '/' :: (host ++ bpath ++ '?' :: bq) =
        (sch ++ ':' :: '/' :: '/' :: (host ++ bpath)) ++ '?' :: bq := by
      simp [List.append_assoc]
    have hfr : splitFirst '#' (sch ++ ':' :: '/' :: '/' ::
        (host ++ bpath ++ '?' :: bq)) = none := by
      refine splitFirst_none '#' _ ?_
      rw [hassoc]
      intro hm
      rcases List.mem_append.mp hm with hm | hm
      · exact hnohashp hm
      · rcases List.mem_cons.mp hm with he | hm
        · exact absurd he (by decide)
        · exact (hbq '#' hm).2 rfl
    have hqr : splitFirst '?' (sch ++ ':' :: '/' :: '/' ::
        (host ++ bpath ++ '?' :: bq)) =
        some (sch ++ ':' :: '/' :: '/' :: (host ++ bpath), bq) := by
      rw [hassoc]
      exact splitFirst_append_sep '?' _ bq hnoqp
    simp only [specParse, hfr, hqr, hscheme, List.take_succ_cons, List.take_zero,
      List.drop_succ_cons, List.drop_zero, htakeA, hdropA]
    simp

/-- `urlsplit` on a well-formed scheme-less relative reference (path,
optional query, optional fragment), with the base's scheme as default. -/
theorem urlsplitL_ref (sch p rq rf : PyStr)
    (hsch : sch = "http".data ∨ sch = "https".data)
    (hp : ∀ c ∈ p, 32 < c.toNat ∧ c ≠ '?' ∧ c ≠ '#')
    (hrq : ∀ c ∈ rq, 32 < c.toNat ∧ c ≠ '#')
    (hrf : ∀ c ∈ rf, 32 < c.toNat)
    (hnoscheme : splitScheme (p ++ (if rq = [] then [] else '?' :: rq) ++
        (if rf = [] then [] else '#' :: rf)) = none)
    (htake2 : ¬(p ++ (if rq = [] then [] else '?' :: rq) ++
        (if rf = [] then [] else '#' :: rf)).take 2 = ['/', '/']) :
    urlsplitL (p ++ (if rq = [] then [] else '?' :: rq) ++
        (if rf = [] then [] else '#' :: rf)) sch =
      ⟨sch, [], p, rq, rf⟩ := by
  have hq32 : ∀ c ∈ (if rq = [] then [] else '?' :: rq),
      32 < c.toNat ∧ c ≠ '#' := by
    by_cases h0 : rq = []
    · simp [h0]
    · rw [if_neg h0]
      intro c hc
      rcases List.mem_cons.mp hc with rfl | hc
      · exact ⟨by decide, by decide⟩
      · exact hrq c hc
  have hall : ∀ c ∈ p ++ (if rq = [] then [] else '?' :: rq) ++
      (if rf = [] then [] else '#' :: rf), 32 < c.toNat := by
    intro c hc
    rcases List.mem_append.mp hc with hc | hc
    · rcases List.mem_append.mp hc with hc | hc
      · exact (hp c hc).1
      · exact (hq32 c hc).1
    · by_cases h0 : rf = []
      · rw [if_pos h0] at hc
        simp at hc
      · rw [if_neg h0] at hc
        rcases List.mem_cons.mp hc with rfl | hc
        · decide
        · exact hrf c hc
  have hclean : removeCtl (lstripC0 (p ++ (if rq = [] then [] else '?' :: rq) ++
      (if rf = [] then [] else '#' :: rf))) =
      p ++ (if rq = [] then [] else '?' :: rq) ++
      (if rf = [] then [] else '#' :: rf) := by
    rw [lstripC0_eq_self _ hall, removeCtl_eq_self_of_gt32 _ hall]
  have hds : removeCtl (stripC0 sch) = sch := by
    rcases hsch with rfl | rfl <;> decide
  have hnohashpq : '#' ∉ p ++ (if rq = [] then [] else '?' :: rq) := by
    intro hm
    rcases List.mem_append.mp hm with hm | hm
    · exact (hp '#' hm).2.2 rfl
    · exact (hq32 '#' hm).2 rfl
  have hnoqp : '?' ∉ p := fun hm => (hp '?' hm).2.1 rfl
  have hfr : splitFirst '#' (p ++ (if rq = [] then [] else '?' :: rq) ++
      (if rf = [] then [] else '#' :: rf)) =
      (if rf = [] then none
       else some (p ++ (if rq = [] then [] else '?' :: rq), rf)) := by
    by_cases h0 : rf = []
    · rw [if_pos h0, if_pos h0, List.append_nil]
      exact splitFirst_none '#' _ hnohashpq
    · rw [if_neg h0, if_neg h0]
      exact splitFirst_append_sep '#' _ rf hnohashpq
  have hqr : splitFirst '?' (p ++ (if rq = [] then [] else '?' :: rq)) =
      (if rq = [] then none else some (p, rq)) := by
    by_cases h0 : rq = []
    · rw [if_pos h0, if_pos h0, List.append_nil]
      exact splitFirst_none '?' p hnoqp
    · rw [if_neg h0, if_neg h0]
      exact splitFirst_append_sep '?' p rq hnoqp
  have hqrp : splitFirst '?' p = none := splitFirst_none '?' p hnoqp
  simp only [urlsplitL, hclean, hds, hnoscheme, if_neg htake2]
  by_cases hrf0 : rf = []
  · by_cases hrq0 : rq = []
    · simp [hrf0, hrq0] at hfr hqr ⊢
      simp [hfr, hqr]
    · simp [hrf0, hrq0] at hfr hqr ⊢
      simp [hfr, hqr]
  · by_cases hrq0 : rq = []
    · simp [hrf0, hrq0] at hfr hqr ⊢
      simp [hfr, hqr]
    · simp [hrf0, hrq0] at hfr hqr ⊢
      simp [hfr, hqr]

/-- `urlparse` on the same well-formed scheme-less relative reference. -/
theorem urlparseL_ref (sch p rq rf : PyStr)
    (hsch : sch = "http".data ∨ sch = "https".data)
    (hp : ∀ c ∈ p, 32 < c.toNat ∧ c ≠ '?' ∧ c ≠ '#')
    (hpsemi : ';' ∉ p)
    (hrq : ∀ c ∈ rq, 32 < c.toNat ∧ c ≠ '#')
    (hrf : ∀ c ∈ rf, 32 < c.toNat)
    (hnoscheme : splitScheme (p ++ (if rq = [] then [] else '?' :: rq) ++
        (if rf = [] then [] else '#' :: rf)) = none)
    (htake2 : ¬(p ++ (if rq = [] then [] else '?' :: rq) ++
        (if rf = [] then [] else '#' :: rf)).take 2 = ['/', '/']) :
    urlparseL (p ++ (if rq = [] then [] else '?' :: rq) ++
        (if rf = [] then [] else '#' :: rf)) sch =
      ⟨sch, [], p, [], rq, rf⟩ := by
  unfold urlparseL
  rw [urlsplitL_ref sch p rq rf hsch hp hrq hrf hnoscheme htake2]
  simp only [contains_eq_false_of_not_mem p ';' hpsemi, Bool.and_false,
    Bool.false_eq_true, if_false]

/-- The RFC parser on the same well-formed scheme-less relative reference. -/
theorem specParse_ref (p rq rf : PyStr)
    (hp : ∀ c ∈ p, 32 < c.toNat ∧ c ≠ '?' ∧ c ≠ '#')
    (hrq : ∀ c ∈ rq, 32 < c.toNat ∧ c ≠ '#')
    (hnoschemep : splitScheme p = none)
    (htake2p : ¬p.take 2 = ['/', '/']) :
    specParse (p ++ (if rq = [] then [] else '?' :: rq) ++
        (if rf = [] then [] else '#' :: rf)) =
      ⟨none, none, p, (if rq = [] then none else some rq),
        (if rf = [] then none else some rf)⟩ := by
  have hq32 : ∀ c ∈ (if rq = [] then [] else '?' :: rq),
      32 < c.toNat ∧ c ≠ '#' := by
    by_cases h0 : rq = []
    · simp [h0]
    · rw [if_neg h0]
      intro c hc
      rcases List.mem_cons.mp hc with rfl | hc
      · exact ⟨by decide, by decide⟩
      · exact hrq c hc
  have hnohashpq : '#' ∉ p ++ (if rq = [] then [] else '?' :: rq) := by
    intro hm
    rcases List.mem_append.mp hm with hm | hm
    · exact (hp '#' hm).2.2 rfl
    · exact (hq32 '#' hm).2 rfl
  have hnoqp : '?' ∉ p := fun hm => (hp '?' hm).2.1 rfl
  have hfr : splitFirst '#' (p ++ (if rq = [] then [] else '?' :: rq) ++
      (if rf = [] then [] else '#' :: rf)) =
      (if rf = [] then none
       else some (p ++ (if rq = [] then [] else '?' :: rq), rf)) := by
    by_cases h0 : rf = []
    · rw [if_pos h0, if_pos h0, List.append_nil]
      exact splitFirst_none '#' _ hnohashpq
    · rw [if_neg h0, if_neg h0]
      exact splitFirst_append_sep '#' _ rf hnohashpq
  have hqr : splitFirst '?' (p ++ (if rq = [] then [] else '?' :: rq)) =
      (if rq = [] then none else some (p, rq)) := by
    by_cases h0 : rq = []
    · rw [if_pos h0, if_pos h0, List.append_nil]
      exact splitFirst_none '?' p hnoqp
    · rw [if_neg h0, if_neg h0]
      exact splitFirst_append_sep '?' p rq hnoqp
  by_cases hrf0 : rf = []
  · by_cases hrq0 : rq = []
    · simp [hrf0, hrq0] at hfr hqr ⊢
      simp [specParse, hfr, hqr, hnoschemep, htake2p]
    · simp [hrf0, hrq0] at hfr hqr ⊢
      simp [specParse, hfr, hqr, hnoschemep, htake2p]
  · by_cases hrq0 : rq = []
    · simp [hrf0, hrq0] at hfr hqr ⊢
      simp [specParse, hfr, hqr, hnoschemep, htake2p]
    · simp [hrf0, hrq0] at hfr hqr ⊢
      simp [specParse, hfr, hqr, hnoschemep, htake2p]

theorem urlunparseL_nil_params (scheme netloc url query fragment : PyStr) :
    urlunparseL scheme netloc url [] query fragment =
      urlunsplitL scheme netloc url query fragment := by
  simp [urlunparseL]

/-- `urlunsplit` for an http(s) URL with a nonempty netloc, written as one
canonical concatenation (including the leading-slash repair on the path). -/
theorem urlunsplitL_shape (sch host path q f : PyStr)
    (hsch : sch = "http".data ∨ sch = "https".data) (hh : host ≠ []) :
    urlunsplitL sch host path q f =
      sch ++ ':' :: '/' :: '/' ::
        (host ++ (if path ≠ [] && path.take 1 ≠ ['/'] then '/' :: path else path) ++
         (if q = [] then [] else '?' :: q) ++
         (if f = [] then [] else '#' :: f)) := by
  have hs : sch ≠ [] := by rcases hsch with rfl | rfl <;> decide
  by_cases hq : q = [] <;> by_cases hf : f = [] <;>
    simp [urlunsplitL, hh, hs, hq, hf, List.append_assoc]

/-- RFC recomposition for a URL with scheme and authority, as the same
canonical concatenation. -/
theorem specRecompose_shape (sch host path : PyStr) (q f : Option PyStr) :
    specRecompose ⟨some sch, some host, path, q, f⟩ =
      sch ++ ':' :: '/' :: '/' ::
        (host ++ path ++
         (match q with | some q0 => '?' :: q0 | none => ([] : PyStr)) ++
         (match f with | some f0 => '#' :: f0 | none => ([] : PyStr))) := by
  cases q <;> cases f <;> simp [specRecompose, List.append_assoc]

/-- RFC `merge` of a rendered base path with a relative segment path. -/
theorem specMerge_render (bsegs psegs : List PyStr)
    (hbfree : ∀ t ∈ bsegs, '/' ∉ t) (hpne : psegs ≠ []) :
    specMerge true (renderOut bsegs) (joinSlash psegs) =
      renderOut (bsegs.dropLast ++ psegs) := by
  rcases List.eq_nil_or_concat bsegs with rfl | ⟨B', b, hBb⟩
  case inl =>
    unfold specMerge
    rw [if_pos (by simp [renderOut])]
    simp only [List.dropLast_nil, List.nil_append]
    exact (renderOut_eq_slash_join psegs hpne).symm
  case inr =>
    rw [List.concat_eq_append] at hBb
    subst hBb
    have hrne : renderOut (B' ++ [b]) ≠ [] := renderOut_ne_nil _ (by simp)
    unfold specMerge
    rw [if_neg (by simp [hrne])]
    rw [renderOut_concat, splitLast_concat_sep '/' _ b (hbfree b (by simp)),
      List.dropLast_concat, renderOut_append, renderOut_eq_slash_join psegs hpne]

theorem filterInterior_cons_nil (Y : List PyStr) (h : Y ≠ []) :
    filterInterior ([] :: Y) = [] :: filterInteriorAux Y := by
  cases Y with
  | nil => exact absurd rfl h
  | cons u v => rfl

/-- The `baseParts`/`segments` computation of `urljoin` for a merged
relative path: drop the base's last segment and keep the root marker. -/
theorem merge_segments_py (bsegs psegs : List PyStr)
    (hbfree : ∀ t ∈ bsegs, '/' ∉ t)
    (hbint : ∀ t ∈ bsegs.dropLast, t ≠ [])
    (hpne : psegs ≠ [])
    (hpint : ∀ t ∈ psegs.dropLast, t ≠ []) :
    filterInterior
      ((if (splitAll '/' (renderOut bsegs)).getLast? ≠ some [] then
          (splitAll '/' (renderOut bsegs)).dropLast
        else splitAll '/' (renderOut bsegs)) ++ psegs) =
      [] :: (bsegs.dropLast ++ psegs) := by
  by_cases hb0 : bsegs = []
  · subst hb0
    have h1 : splitAll '/' (renderOut ([] : List PyStr)) = [[]] := rfl
    rw [h1, if_neg (by simp)]
    show filterInterior ([] :: psegs) = [] :: (List.dropLast [] ++ psegs)
    rw [filterInterior_cons_nil psegs hpne, filterInteriorAux_id psegs hpint]
    rfl
  · have hsb : splitAll '/' (renderOut bsegs) = [] :: bsegs :=
      splitAll_renderOut bsegs hb0 hbfree
    rw [hsb]
    rcases List.eq_nil_or_concat bsegs with rfl | ⟨B', bl, hBb⟩
    · exact absurd rfl hb0
    · rw [List.concat_eq_append] at hBb
      subst hBb
      have hBint : ∀ t ∈ B', t ≠ [] := by
        intro t ht
        exact hbint t (by rw [List.dropLast_concat]; exact ht)
      by_cases hbl : bl = []
      · subst hbl
        rw [if_neg (by rw [← List.cons_append, List.getLast?_concat]; simp)]
        rw [List.cons_append, List.append_assoc]
        rw [filterInterior_cons_nil _ (by simp)]
        rw [filterInteriorAux_append B' ([[]] ++ psegs) hBint (by simp)]
        rw [show ([[]] : List PyStr) ++ psegs = [] :: psegs from rfl]
        rw [filterInteriorAux_cons_nil psegs hpne, filterInteriorAux_id psegs hpint]
        rw [List.dropLast_concat]
      · rw [if_pos (by rw [← List.cons_append, List.getLast?_concat]; simp [hbl])]
        rw [← List.cons_append, List.dropLast_concat, List.cons_append]
        rw [filterInterior_cons_nil _ (by
          intro he
          rcases List.append_eq_nil.mp he with ⟨h1, h2⟩
          exact hpne h2)]
        rw [filterInteriorAux_id (B' ++ psegs) (by
          rw [dropLast_append_ne_nil B' psegs hpne]
          intro t ht
          rcases List.mem_append.mp ht with ht | ht
          · exact hBint t ht
          · exact hpint t ht)]
        rw [List.dropLast_concat]

theorem repair_noop (path : PyStr) (h : path = [] ∨ path.take 1 = ['/']) :
    (if path ≠ [] && path.take 1 ≠ ['/'] then '/' :: path else path) = path := by
  rcases h with rfl | h1
  · simp
  · simp [h1]

theorem take2_ne_of_first (x : PyStr) (c : Char) (y : PyStr)
    (hx : x = c :: y) (hc : c ≠ '/') : ¬x.take 2 = ['/', '/'] := by
  subst hx
  intro he
  simp [List.take_succ_cons] at he
  exact hc he.1

theorem take2_ne_of_second (y : PyStr) (h : ¬y.take 1 = ['/']) :
    ¬(('/' :: y : PyStr)).take 2 = ['/', '/'] := by
  intro he
  apply h
  simpa [List.take_succ_cons] using he

theorem take1_ne_of_first (x : PyStr) (c : Char) (y : PyStr)
    (hx : x = c :: y) (hc : c ≠ '/') : ¬x.take 1 = ['/'] := by
  subst hx
  intro he
  simp [List.take_succ_cons] at he
  exact hc he

theorem opt_query_flat (rq : PyStr) :
    (match (if rq = [] then none else some rq) with
     | some q0 => '?' :: q0 | none => ([] : PyStr)) =
    (if rq = [] then [] else '?' :: rq) := by
  by_cases h : rq = [] <;> simp [h]

theorem opt_frag_flat (rf : PyStr) :
    (match (if rf = [] then none else some rf) with
     | some f0 => '#' :: f0 | none => ([] : PyStr)) =
    (if rf = [] then [] else '#' :: rf) := by
  by_cases h : rf = [] <;> simp [h]

/-- `urljoin` on an already-parsed base and a parsed reference with an empty
path: the base path and (when the reference has no query) the base query are
kept. -/
theorem urljoinL_expand_empty (base url sch host bpath bq rq rf : PyStr)
    (hsch : sch = "http".data ∨ sch = "https".data)
    (hbne : ¬base = []) (hune : ¬url = [])
    (hbase : urlparseL base [] = ⟨sch, host, bpath, [], bq, []⟩)
    (href : urlparseL url sch = ⟨sch, [], [], [], rq, rf⟩) :
    urljoinL base url =
      urlunsplitL sch host bpath (if rq = [] then bq else rq) rf := by
  have hur : usesRelative sch = true := by rcases hsch with rfl | rfl <;> decide
  have hun : usesNetloc sch = true := by rcases hsch with rfl | rfl <;> decide
  simp only [urljoinL, if_neg hbne, if_neg hune, hbase, href]
  simp [hur, hun, urlunparseL]

/-- `urljoin` on an already-parsed base and a parsed reference with a
nonempty path: the segment-resolution branch. -/
theorem urljoinL_expand_path (base url sch host bpath p bq rq rf : PyStr)
    (hsch : sch = "http".data ∨ sch = "https".data)
    (hbne : ¬base = []) (hune : ¬url = [])
    (hbase : urlparseL base [] = ⟨sch, host, bpath, [], bq, []⟩)
    (href : urlparseL url sch = ⟨sch, [], p, [], rq, rf⟩)
    (hpne : ¬p = []) :
    urljoinL base url =
      (let segments :=
        if p.take 1 = ['/'] then splitAll '/' p
        else
          filterInterior
            ((if (splitAll '/' bpath).getLast? ≠ some [] then
                (splitAll '/' bpath).dropLast
              else splitAll '/' bpath) ++ splitAll '/' p)
       let resolved := segFold [] segments
       let resolved2 :=
         if segments.getLast? = some ['.'] || segments.getLast? = some ['.', '.'] then
           resolved ++ [[]]
         else resolved
       let path := joinSlash resolved2
       let path2 := if path = [] then ['/'] else path
       urlunsplitL sch host path2 rq rf) := by
  have hur : usesRelative sch = true := by rcases hsch with rfl | rfl <;> decide
  have hun : usesNetloc sch = true := by rcases hsch with rfl | rfl <;> decide
  simp only [urljoinL, if_neg hbne, if_neg hune, hbase, href]
  simp [hur, hun, hpne, urlunparseL]

theorem take1_append (x y : PyStr) (hx : ¬x.take 1 = ['/'])
    (hy : ¬y.take 1 = ['/']) : ¬(x ++ y).take 1 = ['/'] := by
  cases x with
  | nil => simpa using hy
  | cons c x' =>
    intro he
    apply hx
    simpa [List.take_succ_cons] using he

theorem take1_qpart (rq : PyStr) :
    ¬(if rq = [] then [] else '?' :: rq).take 1 = ['/'] := by
  by_cases h : rq = [] <;> simp [h]

theorem take1_fpart (rf : PyStr) :
    ¬(if rf = [] then [] else '#' :: rf).take 1 = ['/'] := by
  by_cases h : rf = [] <;> simp [h]

/-- The central refinement fact: on well-formed http(s) bases and
well-formed scheme-less references whose path has no empty interior
segment (and no `;`), CPython's `urljoin` agrees with RFC 3986 §5
resolution. -/
theorem urljoinL_eq_specResolve
    (sch host bq : PyStr) (bsegs : List PyStr)
    (rooted : Bool) (psegs : List PyStr) (rq rf : PyStr)
    (hsch : sch = "http".data ∨ sch = "https".data)
    (hhne : host ≠ [])
    (hhostc : ∀ c ∈ host, 32 < c.toNat ∧ netlocDelim c = false)
    (hbsegs : ∀ t ∈ bsegs, '/' ∉ t ∧ ';' ∉ t ∧
      ∀ c ∈ t, 32 < c.toNat ∧ c ≠ '?' ∧ c ≠ '#')
    (hbint : ∀ t ∈ bsegs.dropLast, t ≠ [])
    (hbq : ∀ c ∈ bq, 32 < c.toNat ∧ c ≠ '#')
    (hpsegs : ∀ t ∈ psegs, '/' ∉ t ∧ ';' ∉ t ∧
      ∀ c ∈ t, 32 < c.toNat ∧ c ≠ '?' ∧ c ≠ '#')
    (hpint : ∀ t ∈ psegs.dropLast, t ≠ [])
    (hrq : ∀ c ∈ rq, 32 < c.toNat ∧ c ≠ '#')
    (hrf : ∀ c ∈ rf, 32 < c.toNat)
    (hempty : psegs = [] → rq ≠ [])
    (hhead : rooted = false → psegs ≠ [] → psegs.headI ≠ [])
    (hnoscheme : splitScheme
        ((if rooted then renderOut psegs else joinSlash psegs) ++
         (if rq = [] then [] else '?' :: rq) ++
         (if rf = [] then [] else '#' :: rf)) = none) :
    urljoinL
        (sch ++ ':' :: '/' :: '/' ::
          (host ++ renderOut bsegs ++ (if bq = [] then [] else '?' :: bq)))
        ((if rooted then renderOut psegs else joinSlash psegs) ++
         (if rq = [] then [] else '?' :: rq) ++
         (if rf = [] then [] else '#' :: rf)) =
      specResolve
        (sch ++ ':' :: '/' :: '/' ::
          (host ++ renderOut bsegs ++ (if bq = [] then [] else '?' :: bq)))
        ((if rooted then renderOut psegs else joinSlash psegs) ++
         (if rq = [] then [] else '?' :: rq) ++
         (if rf = [] then [] else '#' :: rf)) := by
  have hbfree : ∀ t ∈ bsegs, '/' ∉ t := fun t ht => (hbsegs t ht).1
  have hpfree : ∀ t ∈ psegs, '/' ∉ t := fun t ht => (hpsegs t ht).1
  have hbpc : ∀ c ∈ renderOut bsegs, 32 < c.toNat ∧ c ≠ '?' ∧ c ≠ '#' := by
    intro c hc
    rcases mem_renderOut _ c hc with rfl | ⟨t, ht, hct⟩
    · exact ⟨by decide, by decide, by decide⟩
    · exact (hbsegs t ht).2.2 c hct
  have hbsemi : ';' ∉ renderOut bsegs := by
    intro hm
    rcases mem_renderOut _ ';' hm with h | ⟨t, ht, hct⟩
    · exact absurd h (by decide)
    · exact (hbsegs t ht).2.1 hct
  have hbp0 : renderOut bsegs = [] ∨ (renderOut bsegs).take 1 = ['/'] := by
    by_cases h0 : bsegs = []
    · subst h0
      exact Or.inl rfl
    · right
      rw [renderOut_eq_slash_join _ h0]
      rfl
  have hpc : ∀ c ∈ (if rooted then renderOut psegs else joinSlash psegs),
      32 < c.toNat ∧ c ≠ '?' ∧ c ≠ '#' := by
    intro c hc
    have h2 : c = '/' ∨ ∃ t ∈ psegs, c ∈ t := by
      cases rooted with
      | true => exact mem_renderOut _ c (by simpa using hc)
      | false => exact mem_joinSlash _ c (by simpa using hc)
    rcases h2 with rfl | ⟨t, ht, hct⟩
    · exact ⟨by decide, by decide, by decide⟩
    · exact (hpsegs t ht).2.2 c hct
  have hpsemi : ';' ∉ (if rooted then renderOut psegs else joinSlash psegs) := by
    intro hm
    have h2 : (';' : Char) = '/' ∨ ∃ t ∈ psegs, ';' ∈ t := by
      cases rooted with
      | true => exact mem_renderOut _ ';' (by simpa using hm)
      | false => exact mem_joinSlash _ ';' (by simpa using hm)
    rcases h2 with h | ⟨t, ht, hct⟩
    · exact absurd h (by decide)
    · exact (hpsegs t ht).2.1 hct
  have hbPy := urlparseL_base sch host (renderOut bsegs) bq hsch hhostc hbp0
    hbpc hbsemi hbq
  have hbSpec := specParse_base sch host (renderOut bsegs) bq hsch hhostc hbp0
    hbpc hbq
  have hbne : ¬(sch ++ ':' :: '/' :: '/' ::
      (host ++ renderOut bsegs ++ (if bq = [] then [] else '?' :: bq))) = [] := by
    rcases hsch with rfl | rfl <;> simp
  have hnoschemep : splitScheme
      (if rooted then renderOut psegs else joinSlash psegs) = none :=
    splitScheme_of_append_none _ _ (splitScheme_of_append_none _ _ hnoscheme)
  by_cases hps0 : psegs = []
  · -- empty reference path: the query (which must be present) replaces the
    -- base's, the base path is kept
    subst hps0
    have hrqne : rq ≠ [] := hempty rfl
    have hp0 : (if rooted then renderOut ([] : List PyStr) else joinSlash []) =
        ([] : PyStr) := by
      cases rooted <;> rfl
    rw [hp0] at hnoscheme ⊢
    rw [List.nil_append] at hnoscheme ⊢
    have hrefPy := urlparseL_ref sch [] rq rf hsch (by simp) (by simp) hrq hrf
      (by simpa using hnoscheme)
      (by
        rw [if_neg hrqne]
        refine take2_ne_of_first _ '?' (rq ++ (if rf = [] then [] else '#' :: rf))
          ?_ (by decide)
        simp)
    have hrefSpec := specParse_ref [] rq rf (by simp) hrq rfl (by decide)
    rw [List.nil_append] at hrefPy hrefSpec
    have hune : ¬((if rq = [] then [] else '?' :: rq) ++
        (if rf = [] then [] else '#' :: rf)) = [] := by
      rw [if_neg hrqne]
      simp
    rw [if_neg hrqne] at hrefPy hrefSpec hune ⊢
    simp only [specResolve, hbSpec, hrefSpec]
    simp only [Option.isSome_none, Option.isSome_some, Bool.false_eq_true,
      if_false, if_true, reduceIte]
    rw [specRecompose_shape, opt_frag_flat]
    rw [urljoinL_expand_empty _ _ sch host (renderOut bsegs) bq rq rf hsch
      hbne hune hbPy hrefPy]
    rw [if_neg hrqne]
    rw [urlunsplitL_shape sch host _ rq rf hsch hhne]
    rw [repair_noop _ hbp0]
    rw [if_neg hrqne]
    simp [hrqne]
  · -- nonempty reference path
    have hqp1 := take1_qpart rq
    have hfp1 := take1_fpart rf
    by_cases hroot : rooted = true
    · -- rooted reference path: the base path is ignored
      subst hroot
      have hpdef : (if (true : Bool) then renderOut psegs else joinSlash psegs) =
          renderOut psegs := rfl
      rw [hpdef] at hnoscheme hnoschemep hpc hpsemi ⊢
      have hrne : renderOut psegs ≠ [] := renderOut_ne_nil _ hps0
      have hjoin : renderOut psegs = '/' :: joinSlash psegs :=
        renderOut_eq_slash_join _ hps0
      have htake1 : (renderOut psegs).take 1 = ['/'] := by
        rw [hjoin]
        rfl
      have hjtake : ¬(joinSlash psegs).take 1 = ['/'] := by
        rcases psegs with _ | ⟨s0, t0⟩
        · exact absurd rfl hps0
        · cases t0 with
          | nil =>
            rcases s0 with _ | ⟨c, s0'⟩
            · simp [joinSlash]
            · exact take1_ne_of_first _ c s0' rfl
                (fun he => hpfree (c :: s0') (by simp) (by simp [he]))
          | cons u t1 =>
            have hs0 : s0 ≠ [] := hpint s0 (by simp)
            rcases s0 with _ | ⟨c, s0'⟩
            · exact absurd rfl hs0
            · refine take1_ne_of_first _ c
                (s0' ++ '/' :: joinSlash (u :: t1)) ?_
                (fun he => hpfree (c :: s0') (by simp) (by simp [he]))
              rw [joinSlash_cons _ _ (by simp)]
              rfl
      have htake2p : ¬(renderOut psegs).take 2 = ['/', '/'] := by
        rw [hjoin]
        exact take2_ne_of_second _ hjtake
      have htake2full : ¬(renderOut psegs ++
          (if rq = [] then [] else '?' :: rq) ++
          (if rf = [] then [] else '#' :: rf)).take 2 = ['/', '/'] := by
        rw [hjoin, List.cons_append, List.cons_append]
        exact take2_ne_of_second _
          (take1_append _ _ (take1_append _ _ hjtake hqp1) hfp1)
      have hrefPy := urlparseL_ref sch (renderOut psegs) rq rf hsch hpc hpsemi
        hrq hrf hnoscheme htake2full
      have hrefSpec := specParse_ref (renderOut psegs) rq rf hpc hrq
        hnoschemep htake2p
      have hune : ¬(renderOut psegs ++ (if rq = [] then [] else '?' :: rq) ++
          (if rf = [] then [] else '#' :: rf)) = [] := by
        rw [hjoin]
        simp
      simp only [specResolve, hbSpec, hrefSpec]
      simp only [Option.isSome_none, Option.isSome_some, Bool.false_eq_true,
        if_false, if_neg hrne, if_pos htake1]
      rw [rds_render psegs hps0 hpfree]
      rw [specRecompose_shape, opt_query_flat, opt_frag_flat]
      rw [urljoinL_expand_path _ _ sch host (renderOut bsegs)
        (renderOut psegs) bq rq rf hsch hbne hune hbPy hrefPy hrne]
      simp only [if_pos htake1, splitAll_renderOut psegs hps0 hpfree]
      rw [urlunsplitL_shape sch host _ rq rf hsch hhne]
      simp only [pyResolvePath_spec psegs hps0 hpfree hpint]
    · -- non-rooted reference path: merged with the base path
      rw [Bool.not_eq_true] at hroot
      subst hroot
      have hpdef : (if (false : Bool) then renderOut psegs else joinSlash psegs) =
          joinSlash psegs := rfl
      rw [hpdef] at hnoscheme hnoschemep hpc hpsemi ⊢
      have hh0 : psegs.headI ≠ [] := hhead rfl hps0
      obtain ⟨h0, t0, hpeq⟩ : ∃ h0 t0, psegs = h0 :: t0 := by
        rcases psegs with _ | ⟨a, b⟩
        · exact absurd rfl hps0
        · exact ⟨a, b, rfl⟩
      have hh0' : h0 ≠ [] := by
        rw [hpeq] at hh0
        simpa using hh0
      obtain ⟨c0, h0', hheq⟩ : ∃ c0 h0', h0 = c0 :: h0' := by
        rcases h0 with _ | ⟨a, b⟩
        · exact absurd rfl hh0'
        · exact ⟨a, b, rfl⟩
      have hc0 : c0 ≠ '/' := fun he =>
        hpfree h0 (by rw [hpeq]; simp) (by rw [hheq, he]; simp)
      have hy0 : ∃ y, joinSlash psegs = c0 :: y := by
        rw [hpeq, hheq]
        cases t0 with
        | nil => exact ⟨h0', rfl⟩
        | cons u t1 =>
          refine ⟨h0' ++ '/' :: joinSlash (u :: t1), ?_⟩
          rw [joinSlash_cons _ _ (by simp)]
          rfl
      obtain ⟨y, hy⟩ := hy0
      have hpne : joinSlash psegs ≠ [] := by simp [hy]
      have htake1 : ¬(joinSlash psegs).take 1 = ['/'] :=
        take1_ne_of_first _ c0 y hy hc0
      have htake2p : ¬(joinSlash psegs).take 2 = ['/', '/'] :=
        take2_ne_of_first _ c0 y hy hc0
      have htake2full : ¬(joinSlash psegs ++
          (if rq = [] then [] else '?' :: rq) ++
          (if rf = [] then [] else '#' :: rf)).take 2 = ['/', '/'] := by
        refine take2_ne_of_first _ c0
          ((y ++ (if rq = [] then [] else '?' :: rq)) ++
           (if rf = [] then [] else '#' :: rf)) ?_ hc0
        rw [hy]
        simp [List.cons_append]
      have hrefPy := urlparseL_ref sch (joinSlash psegs) rq rf hsch hpc
        hpsemi hrq hrf hnoscheme htake2full
      have hrefSpec := specParse_ref (joinSlash psegs) rq rf hpc hrq
        hnoschemep htake2p
      have hune : ¬(joinSlash psegs ++ (if rq = [] then [] else '?' :: rq) ++
          (if rf = [] then [] else '#' :: rf)) = [] := by
        rw [hy]
        simp
      have hSne : bsegs.dropLast ++ psegs ≠ [] := by
        intro he
        exact hps0 (List.append_eq_nil.mp he).2
      have hSfree : ∀ t ∈ bsegs.dropLast ++ psegs, '/' ∉ t := by
        intro t ht
        rcases List.mem_append.mp ht with ht | ht
        · exact hbfree t ((List.dropLast_sublist bsegs).subset ht)
        · exact hpfree t ht
      have hSint : ∀ t ∈ (bsegs.dropLast ++ psegs).dropLast, t ≠ [] := by
        rw [dropLast_append_ne_nil _ psegs hps0]
        intro t ht
        rcases List.mem_append.mp ht with ht | ht
        · exact hbint t ht
        · exact hpint t ht
      simp only [specResolve, hbSpec, hrefSpec]
      simp only [Option.isSome_none, Option.isSome_some,
        Bool.false_eq_true, if_false, if_neg hpne, if_neg htake1,
        if_true]
      rw [specMerge_render bsegs psegs hbfree hps0]
      rw [rds_render (bsegs.dropLast ++ psegs) hSne hSfree]
      rw [specRecompose_shape, opt_query_flat, opt_frag_flat]
      rw [urljoinL_expand_path _ _ sch host (renderOut bsegs)
        (joinSlash psegs) bq rq rf hsch hbne hune hbPy hrefPy hpne]
      simp only [if_neg htake1, splitAll_joinSlash psegs hps0 hpfree,
        merge_segments_py bsegs psegs hbfree hbint hps0 hpint]
      rw [urlunsplitL_shape sch host _ rq rf hsch hhne]
      simp only [pyResolvePath_spec (bsegs.dropLast ++ psegs) hSne
        hSfree hSint]

theorem extract_links_singleton (r b : String) (h : is_http_url r = true) :
    extract_links [r] b = [urljoin b r] := by
  rw [extract_links_eq]
  show List.insertionSort _ (linkFold b [] [r]) = _
  rw [linkFold_cons, if_pos h, if_neg (by simp)]
  simp [linkFold, List.insertionSort]

/-! Claim theorems. -/

/-- Claim C1 (code bug): contrary to the specified HEAD-then-GET fallback,
`check_link` trusts a 405 (and 403) HEAD response: since `code >= 400` is
tested before `code in (405, 403)`, the fallback branch is dead and the
verdict is based on the HEAD result with no GET issued.  HEAD 405 / GET 200
yields `(True, "HTTP 405 (HEAD)")`, not `(False, "HTTP 200 (GET)")`. -/
theorem C1_head_403_405_trusted_without_get :
    check_link ⟨.status 405, .status 200⟩ =
      (.ok (true, "HTTP 405 (HEAD)"), ["HEAD"]) ∧
    check_link ⟨.status 403, .status 200⟩ =
      (.ok (true, "HTTP 403 (HEAD)"), ["HEAD"]) :=
  ⟨rfl, rfl⟩

/-- Claim C2 (counterexample): a whitespace-only href is not excluded.
`is_http_url " "` is `True` — the code tests `if not href` before stripping,
so `" "` strips to `""`, which parses with an empty scheme and matches no
rejected prefix — and `extract_links` then resolves it against the base URL,
yielding the base URL itself as a member of the checkable set. -/
theorem C2_counterexample_whitespace_href_included :
    is_http_url " " = true ∧
    extract_links [" "] "https://site.test" = ["https://site.test"] := by
  constructor
  · rfl
  · decide

/-- Claim C2 (amended): an empty href is rejected and contributes nothing to
the checkable set; a nonempty href consisting only of whitespace, however,
is accepted by the navigability filter (it is treated as a relative
reference and resolved against the base URL). -/
theorem C2_amended_empty_rejected_whitespace_accepted
    (pre post : List String) (base : String) (ws : String)
    (hne : ws.data ≠ []) (hws : ∀ c ∈ ws.data, pySpaceChar c = true) :
    is_http_url "" = false ∧
    extract_links (pre ++ "" :: post) base = extract_links (pre ++ post) base ∧
    is_http_url ws = true := by
  refine ⟨rfl, extract_links_skip pre post "" base rfl, ?_⟩
  show isHttpUrlL ws.data = true
  have hstrip : pyStrip ws.data = [] := by
    unfold pyStrip
    rw [dropWhile_eq_nil_of_all _ _ hws]
    rfl
  simp only [isHttpUrlL, hstrip]
  rw [if_neg hne]
  decide

/-- Witness for the amended C2 at the whitespace href `" "`. -/
theorem C2_amended_witness :
    is_http_url "" = false ∧
    extract_links (["https://a.test/p"] ++ "" :: []) "https://site.test" =
      extract_links (["https://a.test/p"] ++ []) "https://site.test" ∧
    is_http_url " " = true :=
  C2_amended_empty_rejected_whitespace_accepted ["https://a.test/p"] []
    "https://site.test" " " (by decide) (by decide)

/-- Claim C3: an anchor href beginning with `#`, `mailto:`, `tel:`,
`javascript:` or `data:` is classified not navigable and excluded: deleting
it from the document leaves the checkable set unchanged. -/
theorem C3_rejected_prefix_hrefs_excluded (pre post : List String)
    (href base : String)
    (h : ∃ p ∈ rejectedPrefixes, p.isPrefixOf href.data = true) :
    is_http_url href = false ∧
    extract_links (pre ++ href :: post) base = extract_links (pre ++ post) base := by
  have hf := is_http_url_false_of_rejected href h
  exact ⟨hf, extract_links_skip pre post href base hf⟩

/-- Witness for C3: scenario 3's `#top` anchor is excluded. -/
theorem C3_rejected_prefix_hrefs_excluded_witness :
    is_http_url "#top" = false ∧
    extract_links (["https://ok.example/x"] ++ "#top" :: [])
        "https://page.test" =
      extract_links (["https://ok.example/x"] ++ []) "https://page.test" :=
  C3_rejected_prefix_hrefs_excluded ["https://ok.example/x"] [] "#top"
    "https://page.test" ⟨"#".data, by decide, by decide⟩

/-- Claim C7 (counterexample): resolution by `urljoin` does not always
agree with standard (RFC 3986) resolution.  For the accepted relative href
`c//d` against base `https://ex.com/a/b`, the code collapses the empty path
segment (`filter(None, segments[1:-1])`) and yields
`https://ex.com/a/c/d`, while standard resolution yields
`https://ex.com/a/c//d`. -/
theorem C7_counterexample_empty_segment_collapsed :
    is_http_url "c//d" = true ∧
    urljoin "https://ex.com/a/b" "c//d" = "https://ex.com/a/c/d" ∧
    specResolve "https://ex.com/a/b".data "c//d".data =
      "https://ex.com/a/c//d".data ∧
    (urljoin "https://ex.com/a/b" "c//d").data ≠
      specResolve "https://ex.com/a/b".data "c//d".data := by
  refine ⟨by decide, by decide, by decide, by decide⟩

/-- Claim C7 (amended): for every accepted scheme-less relative href built
from `/`-free path segments with no empty interior segment and no `;`, `?`,
`#` or control characters inside segments (plus optional query and
fragment), against a well-formed http(s) base URL with a nonempty host and
a path of the same shape, the absolute URL placed in the checkable set by
`extract_links` is exactly the RFC 3986 §5 resolution of the href against
the base URL.  The original claim over all accepted relative hrefs is
refuted by `C7_counterexample_empty_segment_collapsed` (CPython collapses
empty interior segments where the RFC keeps them). -/
theorem C7_amended_relative_resolution_standard
    (sch host bq : PyStr) (bsegs : List PyStr)
    (rooted : Bool) (psegs : List PyStr) (rq rf : PyStr)
    (hsch : sch = "http".data ∨ sch = "https".data)
    (hhne : host ≠ [])
    (hhostc : ∀ c ∈ host, 32 < c.toNat ∧ netlocDelim c = false)
    (hbsegs : ∀ t ∈ bsegs, '/' ∉ t ∧ ';' ∉ t ∧
      ∀ c ∈ t, 32 < c.toNat ∧ c ≠ '?' ∧ c ≠ '#')
    (hbint : ∀ t ∈ bsegs.dropLast, t ≠ [])
    (hbq : ∀ c ∈ bq, 32 < c.toNat ∧ c ≠ '#')
    (hpsegs : ∀ t ∈ psegs, '/' ∉ t ∧ ';' ∉ t ∧
      ∀ c ∈ t, 32 < c.toNat ∧ c ≠ '?' ∧ c ≠ '#')
    (hpint : ∀ t ∈ psegs.dropLast, t ≠ [])
    (hrq : ∀ c ∈ rq, 32 < c.toNat ∧ c ≠ '#')
    (hrf : ∀ c ∈ rf, 32 < c.toNat)
    (hempty : psegs = [] → rq ≠ [])
    (hhead : rooted = false → psegs ≠ [] → psegs.headI ≠ [])
    (hnoscheme : splitScheme
        ((if rooted then renderOut psegs else joinSlash psegs) ++
         (if rq = [] then [] else '?' :: rq) ++
         (if rf = [] then [] else '#' :: rf)) = none)
    (hacc : is_http_url
        ⟨(if rooted then renderOut psegs else joinSlash psegs) ++
         (if rq = [] then [] else '?' :: rq) ++
         (if rf = [] then [] else '#' :: rf)⟩ = true) :
    extract_links
        [⟨(if rooted then renderOut psegs else joinSlash psegs) ++
          (if rq = [] then [] else '?' :: rq) ++
          (if rf = [] then [] else '#' :: rf)⟩]
        ⟨sch ++ ':' :: '/' :: '/' ::
          (host ++ renderOut bsegs ++ (if bq = [] then [] else '?' :: bq))⟩ =
      [⟨specResolve
          (sch ++ ':' :: '/' :: '/' ::
            (host ++ renderOut bsegs ++ (if bq = [] then [] else '?' :: bq)))
          ((if rooted then renderOut psegs else joinSlash psegs) ++
           (if rq = [] then [] else '?' :: rq) ++
           (if rf = [] then [] else '#' :: rf))⟩] := by
  rw [extract_links_singleton _ _ hacc]
  simp only [urljoin]
  rw [urljoinL_eq_specResolve sch host bq bsegs rooted psegs rq rf hsch hhne
    hhostc hbsegs hbint hbq hpsegs hpint hrq hrf hempty hhead hnoscheme]

/-- Witness for the amended C7 at the spec's own example: href `../c` on
base `https://ex.com/a/b` resolves to `https://ex.com/c`, and the checkable
set contains exactly that RFC-resolved URL. -/
theorem C7_amended_witness :
    extract_links ["../c"] "https://ex.com/a/b" = ["https://ex.com/c"] := by
  have h := C7_amended_relative_resolution_standard "https".data "ex.com".data
    [] ["a".data, "b".data] false ["..".data, "c".data] [] []
    (by decide) (by decide) (by decide) (by decide) (by decide) (by decide)
    (by decide) (by decide) (by decide) (by decide) (by decide) (by decide)
    (by decide) (by decide)
  refine Eq.trans ?_ (Eq.trans h ?_)
  · decide
  · decide

/-- Claim C4: for every document (href list) and base URL, `extract_links`
returns a list that is sorted in ascending lexicographic order and contains
no duplicate absolute URL strings. -/
theorem C4_extract_links_sorted_nodup (hrefs : List String) (base_url : String) :
    List.Sorted (fun a b : String => a ≤ b) (extract_links hrefs base_url) ∧
    (extract_links hrefs base_url).Nodup :=
  ⟨extract_links_sorted hrefs base_url, extract_links_nodup hrefs base_url⟩

/-- Claim C5: for a transport obeying the `requests` contract (every failure
is a `RequestException`), `check_link` always returns a `(is_broken, info)`
pair — no exception escapes — and when the GET fallback itself fails at the
transport level the result is `(True, "Error: <message>")`. -/
theorem C5_check_link_never_raises (t : Transport) (hwf : t.WF) :
    (∃ b s, (check_link t).1 = .ok (b, s)) ∧
    (∀ m, t.getOut = .raises (.requestException m) → "GET" ∈ (check_link t).2 →
      (check_link t).1 = .ok (true, "Error: " ++ m)) := by
  obtain ⟨ho, go⟩ := t
  obtain ⟨hwfh, hwfg⟩ := hwf
  cases ho with
  | raises e =>
    have he : e.isRequestException = true := hwfh e rfl
    cases e with
    | otherError m0 => exact absurd he (by simp [PyExn.isRequestException])
    | requestException m0 =>
      cases go with
      | status c =>
        constructor
        · by_cases hc : c ≥ 400 <;>
            simp [check_link, checkLinkGet, PyExn.isRequestException, hc]
        · intro m hg; exact absurd hg (by simp)
      | raises e2 =>
        have he2 : e2.isRequestException = true := hwfg e2 rfl
        cases e2 with
        | otherError m2 => exact absurd he2 (by simp [PyExn.isRequestException])
        | requestException m2 =>
          refine ⟨⟨true, "Error: " ++ m2, rfl⟩, ?_⟩
          intro m hg _
          have : m2 = m := by
            injection hg with h1
            injection h1
          subst this
          rfl
  | status c =>
    by_cases hc : c ≥ 400
    · refine ⟨⟨true, "HTTP " ++ toString c ++ " (HEAD)", by simp [check_link, hc]⟩, ?_⟩
      intro m hg hmem
      simp [check_link, hc] at hmem
    · have h405 : c ≠ 405 := by omega
      have h403 : c ≠ 403 := by omega
      refine ⟨⟨false, "HTTP " ++ toString c ++ " (HEAD)",
        by simp [check_link, hc, h405, h403]⟩, ?_⟩
      intro m hg hmem
      simp [check_link, hc, h405, h403] at hmem

/-- Witness for C5 at a concrete transport whose HEAD and GET both raise
`RequestException`s. -/
theorem C5_check_link_never_raises_witness :
    (∃ b s, (check_link ⟨.raises (.requestException "x"),
      .raises (.requestException "no route to host")⟩).1 = .ok (b, s)) ∧
    (∀ m, (Transport.mk (.raises (.requestException "x"))
        (.raises (.requestException "no route to host"))).getOut =
          .raises (.requestException m) →
      "GET" ∈ (check_link ⟨.raises (.requestException "x"),
        .raises (.requestException "no route to host")⟩).2 →
      (check_link ⟨.raises (.requestException "x"),
        .raises (.requestException "no route to host")⟩).1 =
        .ok (true, "Error: " ++ m)) :=
  C5_check_link_never_raises _
    ⟨fun e he => by injection he with h; subst h; rfl,
     fun e he => by injection he with h; subst h; rfl⟩

/-- Claim C6: in the summary, the printed broken count is the length of the
accumulated broken list, equals the number of checked links whose verdict is
broken, and never exceeds the total number of links checked. -/
theorem C6_summary_counts (verdict : String → Bool × String) (links : List String) :
    (summarize verdict links).countBroken = (summarize verdict links).brokenList.length ∧
    (summarize verdict links).countBroken =
      (links.filter (fun l => (verdict l).1)).length ∧
    (summarize verdict links).countBroken ≤ (summarize verdict links).total := by
  refine ⟨rfl, ?_, ?_⟩
  · show (runChecks verdict links).length = _
    rw [runChecks_eq]
    simp
  · show (runChecks verdict links).length ≤ links.length
    rw [runChecks_eq]
    simpa using List.length_filter_le (fun l => (verdict l).1) links

/-- Claim C8: the run exits 0 on success — including the zero-links case,
which produces no summary but is not an error — and exits 1 with no summary
when the initial fetch/render fails. -/
theorem C8_exit_codes (fetched : Except String (List String)) (url : String)
    (verdict : String → Bool × String) :
    (∀ m, fetched = .error m → mainRun fetched url verdict = (1, none)) ∧
    (∀ hrefs, fetched = .ok hrefs → (mainRun fetched url verdict).1 = 0) ∧
    (∀ hrefs, fetched = .ok hrefs → extract_links hrefs url = [] →
      mainRun fetched url verdict = (0, none)) ∧
    (∀ hrefs, fetched = .ok hrefs → extract_links hrefs url ≠ [] →
      mainRun fetched url verdict =
        (0, some (summarize verdict (extract_links hrefs url)))) := by
  refine ⟨?_, ?_, ?_, ?_⟩
  · intro m heq; subst heq; rfl
  · intro hrefs heq; subst heq
    by_cases hn : extract_links hrefs url = [] <;> simp [mainRun, hn]
  · intro hrefs heq hnil; subst heq
    simp [mainRun, hnil]
  · intro hrefs heq hnil; subst heq
    simp [mainRun, hnil]

/-- Witness for C8: a failing fetch exits 1 with no summary; a page whose
only anchor is a fragment link yields zero links and exits 0 with no
summary. -/
theorem C8_exit_codes_witness :
    mainRun (.error "net::ERR_NAME_NOT_RESOLVED") "https://site.test"
      (fun _ => (false, "HTTP 200 (HEAD)")) = (1, none) ∧
    mainRun (.ok ["#top"]) "https://site.test"
      (fun _ => (false, "HTTP 200 (HEAD)")) = (0, none) :=
  ⟨(C8_exit_codes _ _ _).1 "net::ERR_NAME_NOT_RESOLVED" rfl,
   (C8_exit_codes _ _ _).2.2.1 ["#top"] rfl (by decide)⟩

/-- Claim C9: a HEAD probe that returns a status below 400 (hence neither
403 nor 405) settles the verdict as not broken with description
`HTTP <code> (HEAD)` and no GET is issued: the only request made is the
HEAD. -/
theorem C9_head_ok_single_request (t : Transport) (code : Nat)
    (hhead : t.headOut = .status code) (hlt : code < 400)
    (h403 : code ≠ 403) (h405 : code ≠ 405) :
    check_link t =
      (.ok (false, "HTTP " ++ toString code ++ " (HEAD)"), ["HEAD"]) := by
  obtain ⟨ho, go⟩ := t
  cases hhead
  have hc : ¬ code ≥ 400 := by omega
  simp [check_link, hc, h403, h405]

/-- Witness for C9 at HEAD status 200 (the GET outcome is irrelevant and is
taken to be a transport failure). -/
theorem C9_head_ok_single_request_witness :
    check_link ⟨.status 200, .raises (.requestException "unused")⟩ =
      (.ok (false, "HTTP 200 (HEAD)"), ["HEAD"]) :=
  C9_head_ok_single_request _ 200 rfl (by omega) (by omega) (by omega)

/-- Claim C10: the broken links recorded by the checking loop appear in the
order in which the links were checked — a sublist of the checked link list —
and that order is ascending lexicographic order of the absolute URLs. -/
theorem C10_broken_list_order (hrefs : List String) (base : String)
    (verdict : String → Bool × String) :
    List.Sublist
      ((summarize verdict (extract_links hrefs base)).brokenList.map Prod.fst)
      (extract_links hrefs base) ∧
    List.Sorted (fun a b : String => a ≤ b)
      ((summarize verdict (extract_links hrefs base)).brokenList.map Prod.fst) := by
  have hmap : (summarize verdict (extract_links hrefs base)).brokenList.map Prod.fst
      = (extract_links hrefs base).filter (fun l => (verdict l).1) := by
    show (runChecks verdict _).map Prod.fst = _
    rw [runChecks_eq, List.map_map]
    exact List.map_id _
  rw [hmap]
  exact ⟨List.filter_sublist _,
    List.Pairwise.sublist (List.filter_sublist _) (extract_links_sorted hrefs base)⟩

end LinkChecker
